import Mathlib

/-!
Verification of the bittorrent-client-py repository.

Byte strings are modelled as `List Nat` (each element one byte value).
Python integers are `Int`/`Nat`; Python floats that only ever get compared
or combined linearly (download rates, timestamps) are modelled as `Rat`.
Every definition is a shallow embedding of the corresponding Python
function from `src/`, keeping the source's names where Lean allows it.
-/

namespace BTC

/-! ## Byte-string prelude

Python compares `bytes` lexicographically (a strict prefix is smaller).
`lexLt` is that strict order; it is what `sorted()` uses on dict keys in
`bencode.encode`.
-/

/-- Strict lexicographic order on byte strings, as Python compares `bytes`. -/
def lexLt : List Nat → List Nat → Bool
  | _, [] => false
  | [], _ :: _ => true
  | a :: as, b :: bs => if a < b then true else if b < a then false else lexLt as bs

theorem lexLt_irrefl (l : List Nat) : lexLt l l = false := by
  induction l with
  | nil => rfl
  | cons a as ih => simp [lexLt, ih]

theorem lexLt_asymm : ∀ {a b : List Nat}, lexLt a b = true → lexLt b a = true → False
  | _ :: _, [], h, _ => by simp [lexLt] at h
  | [], [], h, _ => by simp [lexLt] at h
  | [], _ :: _, _, h' => by simp [lexLt] at h'
  | a :: as, b :: bs, h, h' => by
    simp only [lexLt] at h h'
    rcases Nat.lt_trichotomy a b with hab | hab | hab
    · simp [hab, Nat.not_lt.mpr (Nat.le_of_lt hab)] at h'
    · subst hab
      simp only [Nat.lt_irrefl, if_false] at h h'
      exact lexLt_asymm h h'
    · simp [hab, Nat.not_lt.mpr (Nat.le_of_lt hab)] at h

theorem lexLt_trans : ∀ {a b c : List Nat},
    lexLt a b = true → lexLt b c = true → lexLt a c = true
  | _, _, [], _, h' => by simp [lexLt] at h'
  | [], _, _ :: _, _, _ => by simp [lexLt]
  | _ :: _, [], _ :: _, h, _ => by simp [lexLt] at h
  | a :: as, b :: bs, c :: cs, h, h' => by
    simp only [lexLt] at h h' ⊢
    rcases Nat.lt_trichotomy a b with hab | hab | hab
    · rcases Nat.lt_trichotomy b c with hbc | hbc | hbc
      · simp [Nat.lt_trans hab hbc]
      · subst hbc; simp [hab]
      · simp [hbc, Nat.not_lt.mpr (Nat.le_of_lt hbc)] at h'
    · subst hab
      rcases Nat.lt_trichotomy a c with hac | hac | hac
      · simp [hac]
      · subst hac
        simp only [Nat.lt_irrefl, if_false] at h h' ⊢
        exact lexLt_trans h h'
      · simp [hac, Nat.not_lt.mpr (Nat.le_of_lt hac)] at h'
    · simp [hab, Nat.not_lt.mpr (Nat.le_of_lt hab)] at h

theorem lexLt_connex : ∀ {a b : List Nat},
    lexLt a b = false → lexLt b a = false → a = b
  | [], [], _, _ => rfl
  | [], _ :: _, h, _ => by simp [lexLt] at h
  | _ :: _, [], _, h' => by simp [lexLt] at h'
  | a :: as, b :: bs, h, h' => by
    simp only [lexLt] at h h'
    rcases Nat.lt_trichotomy a b with hab | hab | hab
    · simp [hab] at h
    · subst hab
      simp only [Nat.lt_irrefl, if_false] at h h'
      exact congrArg (a :: ·) (lexLt_connex h h')
    · simp [hab] at h'

/-- Decimal digits (ASCII codes) of a natural number, as Python's `str`. -/
def natDec (n : Nat) : List Nat :=
  if h : n < 10 then [48 + n]
  else natDec (n / 10) ++ [48 + n % 10]
  decreasing_by exact Nat.div_lt_self (by omega) (by omega)

/-- Decimal ASCII rendering of an integer, as Python's `str` on `int`. -/
def intDec (i : Int) : List Nat :=
  if i < 0 then 45 :: natDec i.natAbs else natDec i.toNat

/-- Numeric value of a string of ASCII digits. -/
def digitsToNat (l : List Nat) : Nat :=
  l.foldl (fun acc d => acc * 10 + (d - 48)) 0

def isDigit (c : Nat) : Bool := 48 ≤ c && c ≤ 57

theorem natDec_ne_nil (n : Nat) : natDec n ≠ [] := by
  unfold natDec
  split <;> simp

theorem natDec_all_digit (n : Nat) : (natDec n).all isDigit = true := by
  induction n using Nat.strong_induction_on with
  | _ n ih =>
    unfold natDec
    split
    · simp only [List.all_cons, List.all_nil, Bool.and_true]
      simp [isDigit]; omega
    · rename_i h
      rw [List.all_append, Bool.and_eq_true]
      refine ⟨ih _ (Nat.div_lt_self (by omega) (by omega)), ?_⟩
      simp only [List.all_cons, List.all_nil, Bool.and_true]
      simp [isDigit]
      have := Nat.mod_lt n (y := 10) (by omega)
      omega

theorem mem_natDec_digit {n c : Nat} (h : c ∈ natDec n) : 48 ≤ c ∧ c ≤ 57 := by
  have := natDec_all_digit n
  rw [List.all_eq_true] at this
  have := this c h
  simp [isDigit] at this
  exact this

theorem digitsToNat_append (l : List Nat) (d : Nat) :
    digitsToNat (l ++ [d]) = digitsToNat l * 10 + (d - 48) := by
  simp [digitsToNat, List.foldl_append]

theorem digitsToNat_natDec (n : Nat) : digitsToNat (natDec n) = n := by
  induction n using Nat.strong_induction_on with
  | _ n ih =>
    unfold natDec
    split
    · rename_i h
      simp [digitsToNat]
    · rename_i h
      rw [digitsToNat_append, ih _ (Nat.div_lt_self (by omega) (by omega))]
      omega

theorem natDec_head_eq_zero_iff (n : Nat) :
    (natDec n).head? = some 48 ↔ n = 0 := by
  induction n using Nat.strong_induction_on with
  | _ n ih =>
    unfold natDec
    split
    · rename_i h
      simp only [List.head?_cons, Option.some.injEq]
      omega
    · rename_i h
      rw [List.head?_append_of_ne_nil _ (natDec_ne_nil _)]
      rw [ih _ (Nat.div_lt_self (by omega) (by omega))]
      constructor
      · intro hq; exfalso; have := Nat.div_eq_of_lt (by omega : n < 10); omega
      · omega

theorem natDec_small (n : Nat) (h : n < 10) : natDec n = [48 + n] := by
  unfold natDec; simp [h]

/-! ## Bencode values (src/bencode.py)

The decoder returns `int` for integers, `bytes` for strings, `list` for
lists and `dict[bytes, *]` for dictionaries; a Python dict is modelled as
an association list in insertion order (a real Python dict never holds two
entries with the same key).
-/

inductive Bencode where
  | int : Int → Bencode
  | str : List Nat → Bencode
  | list : List Bencode → Bencode
  | dict : List (List Nat × Bencode) → Bencode

theorem sizeOf_lt_of_mem_listB {x : Bencode} {xs : List Bencode}
    (h : x ∈ xs) : sizeOf x < sizeOf xs := by
  induction xs with
  | nil => cases h
  | cons y ys ih =>
    rcases List.mem_cons.mp h with h | h
    · subst h; simp <;> omega
    · have := ih h; simp <;> omega

theorem sizeOf_snd_lt_of_mem_entries {kv : List Nat × Bencode}
    {l : List (List Nat × Bencode)} (h : kv ∈ l) : sizeOf kv.2 < sizeOf l := by
  induction l with
  | nil => cases h
  | cons y ys ih =>
    rcases List.mem_cons.mp h with h | h
    · subst h; rcases kv with ⟨k, v⟩; simp <;> omega
    · have := ih h; simp <;> omega

/-- Structural induction for `Bencode` with list and dict members exposed
through membership. -/
theorem Bencode.myInduction (P : Bencode → Prop)
    (hint : ∀ n, P (.int n)) (hstr : ∀ s, P (.str s))
    (hlist : ∀ xs, (∀ x ∈ xs, P x) → P (.list xs))
    (hdict : ∀ kvs, (∀ kv ∈ kvs, P kv.2) → P (.dict kvs)) :
    ∀ v, P v
  | .int n => hint n
  | .str s => hstr s
  | .list xs => hlist xs (fun x hx =>
      Bencode.myInduction P hint hstr hlist hdict x)
  | .dict kvs => hdict kvs (fun kv hkv =>
      Bencode.myInduction P hint hstr hlist hdict kv.2)
  termination_by v => sizeOf v
  decreasing_by
  · have := sizeOf_lt_of_mem_listB hx; simp <;> omega
  · have := sizeOf_snd_lt_of_mem_entries hkv; simp <;> omega

mutual

def beqB : Bencode → Bencode → Bool
  | .int a, .int b => a == b
  | .str a, .str b => a == b
  | .list a, .list b => beqBL a b
  | .dict a, .dict b => beqBD a b
  | _, _ => false

def beqBL : List Bencode → List Bencode → Bool
  | [], [] => true
  | x :: xs, y :: ys => beqB x y && beqBL xs ys
  | _, _ => false

def beqBD : List (List Nat × Bencode) → List (List Nat × Bencode) → Bool
  | [], [] => true
  | (k, v) :: r, (k', v') :: r' => k == k' && beqB v v' && beqBD r r'
  | _, _ => false

end

theorem beqB_iff : ∀ a b : Bencode, beqB a b = true ↔ a = b := by
  intro a
  induction a using Bencode.myInduction with
  | hint n => intro b; cases b <;> simp [beqB]
  | hstr s => intro b; cases b <;> simp [beqB]
  | hlist xs ih =>
    intro b
    cases b <;> simp only [beqB] <;> try simp
    rename_i ys
    induction xs generalizing ys with
    | nil => cases ys <;> simp [beqBL]
    | cons x xs ihl =>
      cases ys with
      | nil => simp [beqBL]
      | cons y ys =>
        simp only [beqBL, Bool.and_eq_true]
        rw [ih x (List.mem_cons_self x xs) y,
          ihl (fun z hz => ih z (List.mem_cons_of_mem x hz)) ys]
        simp
  | hdict kvs ih =>
    intro b
    cases b <;> simp only [beqB] <;> try simp
    rename_i l'
    induction kvs generalizing l' with
    | nil => cases l' <;> simp [beqBD]
    | cons kv r ihd =>
      cases l' with
      | nil => rcases kv with ⟨k, v⟩; simp [beqBD]
      | cons kv' r' =>
        rcases kv with ⟨k, v⟩
        rcases kv' with ⟨k', v'⟩
        simp only [beqBD, Bool.and_eq_true]
        rw [ih (k, v) (List.mem_cons_self _ _) v',
          ihd (fun z hz => ih z (List.mem_cons_of_mem _ hz)) r']
        simp

instance : DecidableEq Bencode := fun a b =>
  decidable_of_iff (beqB a b = true) (beqB_iff a b)

instance {ε α : Type} [DecidableEq ε] [DecidableEq α] :
    DecidableEq (Except ε α) := fun a b =>
  match a, b with
  | .ok x, .ok y => decidable_of_iff (x = y) (by simp)
  | .error e, .error f => decidable_of_iff (e = f) (by simp)
  | .ok _, .error _ => isFalse (by simp)
  | .error _, .ok _ => isFalse (by simp)

/-- Insert into the sorted position, ascending by Python bytes comparison.
Helper for the key sort performed by `encode` on dictionaries; since a
Python dict never holds duplicate keys, any correct ascending sort agrees
with CPython's stable sort there. -/
def insertEntry (x : List Nat × Bencode) :
    List (List Nat × Bencode) → List (List Nat × Bencode)
  | [] => [x]
  | y :: ys => if lexLt x.1 y.1 then x :: y :: ys else y :: insertEntry x ys

/-- Sort dictionary entries ascending by key, as `sorted(obj.keys())` does in
`encode`. -/
def sortPairs : List (List Nat × Bencode) → List (List Nat × Bencode)
  | [] => []
  | x :: xs => insertEntry x (sortPairs xs)

theorem sizeOf_insertEntry (x : List Nat × Bencode)
    (l : List (List Nat × Bencode)) :
    sizeOf (insertEntry x l) = 1 + sizeOf x + sizeOf l := by
  induction l with
  | nil => simp [insertEntry]
  | cons y ys ih =>
    simp only [insertEntry]
    split
    · simp <;> omega
    · simp [ih] <;> omega

theorem sizeOf_sortPairs (l : List (List Nat × Bencode)) :
    sizeOf (sortPairs l) = sizeOf l := by
  induction l with
  | nil => rfl
  | cons x xs ih => simp [sortPairs, sizeOf_insertEntry, ih] <;> omega

theorem insertEntry_perm (x : List Nat × Bencode)
    (l : List (List Nat × Bencode)) : (insertEntry x l).Perm (x :: l) := by
  induction l with
  | nil => exact List.Perm.refl _
  | cons y ys ih =>
    simp only [insertEntry]
    split
    · exact List.Perm.refl _
    · exact List.Perm.trans (List.Perm.cons y ih) (List.Perm.swap x y ys)

theorem sortPairs_perm (l : List (List Nat × Bencode)) :
    (sortPairs l).Perm l := by
  induction l with
  | nil => exact List.Perm.refl _
  | cons x xs ih =>
    exact List.Perm.trans (insertEntry_perm x (sortPairs xs)) (List.Perm.cons x ih)

mutual

/-- Embedding of `bencode.encode`: integers as `i<digits>e`, byte strings
as `<len>:<data>`, lists as `l...e`, dicts as `d...e` with keys sorted. -/
def encode : Bencode → List Nat
  | .int n => 105 :: (intDec n ++ [101])
  | .str s => natDec s.length ++ 58 :: s
  | .list xs => 108 :: (encodeList xs ++ [101])
  | .dict kvs => 100 :: (encodeEntries (sortPairs kvs) ++ [101])
  termination_by v => sizeOf v
  decreasing_by all_goals simp [sizeOf_sortPairs] <;> omega

def encodeList : List Bencode → List Nat
  | [] => []
  | x :: xs => encode x ++ encodeList xs
  termination_by l => sizeOf l
  decreasing_by all_goals simp <;> omega

def encodeEntries : List (List Nat × Bencode) → List Nat
  | [] => []
  | (k, v) :: rest => (natDec k.length ++ 58 :: k) ++ encode v ++ encodeEntries rest
  termination_by l => sizeOf l
  decreasing_by all_goals simp <;> omega

end

/-- First-match association lookup, as used to model Python dict access. -/
def lookupB (k : List Nat) : List (List Nat × Bencode) → Option Bencode
  | [] => none
  | (k', v) :: rest => if k' = k then some v else lookupB k rest

/-- Python `result[key] = value` on a dict modelled as an insertion-ordered
association list: overwrite in place if the key exists, else append. -/
def dinsert (l : List (List Nat × Bencode)) (k : List Nat) (v : Bencode) :
    List (List Nat × Bencode) :=
  match l with
  | [] => [(k, v)]
  | (k', v') :: rest => if k' = k then (k', v) :: rest else (k', v') :: dinsert rest k v

/-- Keys of a dict are pairwise distinct (always true of a Python dict). -/
def nodupKeys : List (List Nat × Bencode) → Bool
  | [] => true
  | (k, _) :: rest => !(rest.any (fun kv => kv.1 == k)) && nodupKeys rest

mutual

/-- A value is well formed when every dictionary inside it has pairwise
distinct keys — exactly the values Python's decoder can produce. -/
def wfB : Bencode → Bool
  | .int _ => true
  | .str _ => true
  | .list xs => wfBL xs
  | .dict kvs => nodupKeys kvs && wfBD kvs

def wfBL : List Bencode → Bool
  | [] => true
  | x :: xs => wfB x && wfBL xs

def wfBD : List (List Nat × Bencode) → Bool
  | [] => true
  | (_, v) :: rest => wfB v && wfBD rest

end

mutual

/-- Python `==` on decoded bencode values: integers and byte strings compare
by value, lists element-wise, dicts as key→value maps (order-insensitive);
values of different shapes are unequal. -/
def pyEq : Bencode → Bencode → Bool
  | .int a, .int b => a == b
  | .str a, .str b => a == b
  | .list a, .list b => pyEqList a b
  | .dict a, .dict b => (a.length == b.length) && pyEqEntries a b
  | .int _, .str _ => false
  | .int _, .list _ => false
  | .int _, .dict _ => false
  | .str _, .int _ => false
  | .str _, .list _ => false
  | .str _, .dict _ => false
  | .list _, .int _ => false
  | .list _, .str _ => false
  | .list _, .dict _ => false
  | .dict _, .int _ => false
  | .dict _, .str _ => false
  | .dict _, .list _ => false

def pyEqList : List Bencode → List Bencode → Bool
  | [], [] => true
  | x :: xs, y :: ys => pyEq x y && pyEqList xs ys
  | [], _ :: _ => false
  | _ :: _, [] => false

def pyEqEntries : List (List Nat × Bencode) → List (List Nat × Bencode) → Bool
  | [], _ => true
  | (k, v) :: rest, b =>
    (match lookupB k b with
     | some w => pyEq v w
     | none => false) && pyEqEntries rest b

end

/-! ### Decoder (class BencodeDecoder)

The Python decoder walks a cursor through the input; the embedding consums
the remaining suffix instead and threads a fuel counter for termination.
`BErr` enumerates the distinct `BencodeError` messages the source raises.
-/

inductive BErr where
  | extraData         -- "Extra data after valid bencode"
  | endOfDataValue    -- "Unexpected end of data while parsing value"
  | invalidPrefix     -- "Invalid bencode prefix byte"
  | missingIntEnd     -- "Missing 'e' terminator for integer"
  | emptyInt          -- "Empty integer"
  | negZeroInt        -- "Invalid integer '-0'"
  | leadingZeroInt    -- "Leading zeros not allowed in integer"
  | invalidNegInt     -- "Invalid negative integer"
  | invalidIntDigits  -- "Invalid integer digits" (int() raised ValueError)
  | missingColon      -- "Missing ':' in bytestring length"
  | emptyLength       -- "Empty length for bytestring"
  | nonDigitLength    -- "Non-digit in bytestring length"
  | leadingZeroLength -- "Leading zeros not allowed in bytestring length"
  | lengthExceeds     -- "Bytestring length exceeds available data"
  | endOfDataList     -- "Unexpected end of data inside list"
  | endOfDataDict     -- "Unexpected end of data inside dict"
  | fuel              -- fuel exhaustion (never reached with the fuel decode passes)
deriving DecidableEq, Repr

/-- Split at the first occurrence of byte `b`, as `data.find(b, i)`. -/
def splitAtByte (b : Nat) : List Nat → Option (List Nat × List Nat)
  | [] => none
  | c :: cs =>
    if c = b then some ([], cs)
    else match splitAtByte b cs with
      | none => none
      | some (pre, post) => some (c :: pre, post)

def isPySpace (c : Nat) : Bool :=
  c = 32 || c = 9 || c = 10 || c = 13 || c = 11 || c = 12

def hasDoubleUnderscore : List Nat → Bool
  | a :: b :: r => (a == 95 && b == 95) || hasDoubleUnderscore (b :: r)
  | _ => false

/-- Digit run as accepted by Python's `int()` after sign removal: ASCII
digits with optional single interior underscores. -/
def pyDigits? (s : List Nat) : Option Nat :=
  if s = [] then none
  else if s.head? = some 95 || s.getLast? = some 95 then none
  else if hasDoubleUnderscore s then none
  else if s.all (fun c => isDigit c || c == 95) then
    some (digitsToNat (s.filter (fun c => c ≠ 95)))
  else none

/-- Whitespace stripping done by Python's `int()` on its string argument. -/
def pyStrip (s : List Nat) : List Nat :=
  (((s.dropWhile isPySpace).reverse).dropWhile isPySpace).reverse

/-- Model of `int(int_bytes.decode("ascii"))`: fails on non-ASCII bytes,
strips whitespace, accepts an optional sign and an underscore-grouped
digit run. -/
def pyInt? (s : List Nat) : Option Int :=
  if s.any (fun c => 127 < c) then none
  else if (pyStrip s).head? = some 43 then
    (pyDigits? (pyStrip s).tail).map (fun n => Int.ofNat n)
  else if (pyStrip s).head? = some 45 then
    (pyDigits? (pyStrip s).tail).map (fun n => -(Int.ofNat n))
  else (pyDigits? (pyStrip s)).map (fun n => Int.ofNat n)

/-- Embedding of `BencodeDecoder._parse_int`, applied to the bytes after the
leading `i`. -/
def parseIntBody (data : List Nat) : Except BErr (Int × List Nat) :=
  match splitAtByte 101 data with
  | none => .error .missingIntEnd
  | some (ib, rest) =>
    if ib = [] then .error .emptyInt
    else if ib = [45, 48] then .error .negZeroInt
    else if ib.head? = some 48 && decide (1 < ib.length) then .error .leadingZeroInt
    else if ib.head? = some 45 && (decide (ib.length = 1) || ib.get? 1 = some 48) then
      .error .invalidNegInt
    else match pyInt? ib with
      | some v => .ok (v, rest)
      | none => .error .invalidIntDigits

/-- Embedding of `BencodeDecoder._parse_bytestring`. -/
def parseBytestring (data : List Nat) : Except BErr (List Nat × List Nat) :=
  match splitAtByte 58 data with
  | none => .error .missingColon
  | some (lb, rest) =>
    if lb = [] then .error .emptyLength
    else if !(lb.all isDigit) then .error .nonDigitLength
    else if lb.head? = some 48 && decide (1 < lb.length) then .error .leadingZeroLength
    else
      let n := digitsToNat lb
      if rest.length < n then .error .lengthExceeds
      else .ok (rest.take n, rest.drop n)

mutual

/-- Embedding of `BencodeDecoder._parse_value` (fuelled). -/
def parseValue : Nat → List Nat → Except BErr (Bencode × List Nat)
  | 0, _ => .error .fuel
  | fuel+1, data =>
    match data with
    | [] => .error .endOfDataValue
    | c :: rest =>
      if c = 105 then
        match parseIntBody rest with
        | .error e => .error e
        | .ok (v, r) => .ok (.int v, r)
      else if c = 108 then
        match parseItems fuel rest with
        | .error e => .error e
        | .ok (vs, r) => .ok (.list vs, r)
      else if c = 100 then
        match parseEntries fuel rest [] with
        | .error e => .error e
        | .ok (kvs, r) => .ok (.dict kvs, r)
      else if isDigit c then
        match parseBytestring data with
        | .error e => .error e
        | .ok (s, r) => .ok (.str s, r)
      else .error .invalidPrefix

/-- Loop body of `BencodeDecoder._parse_list`: stop at an `e` byte, else
parse one value and continue. -/
def parseItems : Nat → List Nat → Except BErr (List Bencode × List Nat)
  | 0, _ => .error .fuel
  | fuel+1, data =>
    match data with
    | [] => .error .endOfDataList
    | c :: rest =>
      if c = 101 then .ok ([], rest)
      else
        match parseValue fuel (c :: rest) with
        | .error e => .error e
        | .ok (v, rest1) =>
          match parseItems fuel rest1 with
          | .error e => .error e
          | .ok (vs, rest2) => .ok (v :: vs, rest2)

/-- Loop body of `BencodeDecoder._parse_dict`; `acc` is the dict built so
far via `result[key] = value`. -/
def parseEntries : Nat → List Nat → List (List Nat × Bencode) →
    Except BErr (List (List Nat × Bencode) × List Nat)
  | 0, _, _ => .error .fuel
  | fuel+1, data, acc =>
    match data with
    | [] => .error .endOfDataDict
    | c :: rest =>
      if c = 101 then .ok (acc, rest)
      else
        match parseBytestring (c :: rest) with
        | .error e => .error e
        | .ok (k, rest1) =>
          match parseValue fuel rest1 with
          | .error e => .error e
          | .ok (v, rest2) => parseEntries fuel rest2 (dinsert acc k v)

end

/-- Embedding of the top-level `bencode.decode`: parse one value, then
require that the input is fully consumed. -/
def decode (data : List Nat) : Except BErr Bencode :=
  match parseValue (data.length + 1) data with
  | .error e => .error e
  | .ok (v, rest) => if rest = [] then .ok v else .error .extraData

/-! ### Round-trip analysis -/

mutual

/-- Value the decoder returns for `encode v`: every dictionary reordered
to sorted key order (rebuilt through the decoder's `result[key] = value`
insertions). -/
def canon : Bencode → Bencode
  | .int n => .int n
  | .str s => .str s
  | .list xs => .list (canonL xs)
  | .dict kvs => .dict (canonD (sortPairs kvs) [])
  termination_by v => sizeOf v
  decreasing_by all_goals simp [sizeOf_sortPairs] <;> omega

def canonL : List Bencode → List Bencode
  | [] => []
  | x :: xs => canon x :: canonL xs
  termination_by l => sizeOf l
  decreasing_by all_goals simp <;> omega

def canonD : List (List Nat × Bencode) → List (List Nat × Bencode) →
    List (List Nat × Bencode)
  | [], acc => acc
  | (k, v) :: rest, acc => canonD rest (dinsert acc k (canon v))
  termination_by l _ => sizeOf l
  decreasing_by all_goals simp <;> omega

end

theorem splitAtByte_spec {b : Nat} {pre : List Nat} (post : List Nat)
    (h : b ∉ pre) : splitAtByte b (pre ++ b :: post) = some (pre, post) := by
  induction pre with
  | nil => simp [splitAtByte]
  | cons c cs ih =>
    have hc : c ≠ b := fun hcb => h (hcb ▸ List.mem_cons_self c cs)
    have ih' := ih (fun hm => h (List.mem_cons_of_mem c hm))
    simp only [List.cons_append, splitAtByte, if_neg hc, List.append_eq, ih']

theorem not_space_of_digit {c : Nat} (h : 48 ≤ c ∧ c ≤ 57) :
    isPySpace c = false := by
  simp [isPySpace]; omega

theorem dropWhile_eq_self_of_none {p : Nat → Bool} {l : List Nat}
    (h : ∀ c ∈ l, p c = false) : l.dropWhile p = l := by
  cases l with
  | nil => rfl
  | cons c cs => simp [List.dropWhile_cons, h c (List.mem_cons_self c cs)]

theorem hasDoubleUnderscore_of_no95 : ∀ {l : List Nat},
    (∀ c ∈ l, c ≠ 95) → hasDoubleUnderscore l = false
  | [], _ => rfl
  | [_], _ => rfl
  | a :: b :: r, h => by
    simp only [hasDoubleUnderscore, Bool.or_eq_false_iff]
    refine ⟨?_, hasDoubleUnderscore_of_no95 (fun c hc => h c (List.mem_cons_of_mem a hc))⟩
    have := h a (List.mem_cons_self _ _)
    simp [this]

theorem pyDigits?_natDec (n : Nat) : pyDigits? (natDec n) = some n := by
  have hd : ∀ c ∈ natDec n, 48 ≤ c ∧ c ≤ 57 := fun c hc => mem_natDec_digit hc
  have h95 : ∀ c ∈ natDec n, c ≠ 95 := fun c hc => by have := hd c hc; omega
  unfold pyDigits?
  rw [if_neg (natDec_ne_nil n)]
  rw [if_neg, if_neg, if_pos]
  · rw [List.filter_eq_self.mpr (by intro c hc; simpa using h95 c hc)]
    rw [digitsToNat_natDec]
  · rw [List.all_eq_true]
    intro c hc
    simp [isDigit, hd c hc]
  · simp [hasDoubleUnderscore_of_no95 h95]
  · simp only [Bool.or_eq_true, not_or, decide_eq_true_eq]
    constructor
    · intro hh
      exact h95 95 (List.mem_of_mem_head? hh) rfl
    · intro hh
      exact h95 95 (List.mem_of_getLast?_eq_some hh) rfl

theorem mem_intDec {c : Nat} {i : Int} (hc : c ∈ intDec i) :
    c = 45 ∨ (48 ≤ c ∧ c ≤ 57) := by
  unfold intDec at hc
  split at hc
  · rcases List.mem_cons.mp hc with h | h
    · exact Or.inl h
    · exact Or.inr (mem_natDec_digit h)
  · exact Or.inr (mem_natDec_digit hc)

theorem intDec_ne_nil (i : Int) : intDec i ≠ [] := by
  unfold intDec
  split
  · simp
  · exact natDec_ne_nil _

theorem pyInt?_intDec (i : Int) : pyInt? (intDec i) = some i := by
  have hnospace : ∀ c ∈ intDec i, isPySpace c = false := by
    intro c hc
    rcases mem_intDec hc with h | h
    · subst h; rfl
    · exact not_space_of_digit h
  have hstrip : pyStrip (intDec i) = intDec i := by
    have h1 : (intDec i).dropWhile isPySpace = intDec i :=
      dropWhile_eq_self_of_none hnospace
    have h2 : (intDec i).reverse.dropWhile isPySpace = (intDec i).reverse :=
      dropWhile_eq_self_of_none (fun c hc => hnospace c (List.mem_reverse.mp hc))
    rw [pyStrip, h1, h2, List.reverse_reverse]
  unfold pyInt?
  rw [if_neg]
  · rw [hstrip]
    by_cases hI : i < 0
    · have hiDec : intDec i = 45 :: natDec i.natAbs := by unfold intDec; rw [if_pos hI]
      rw [hiDec]
      rw [if_neg (by simp), if_pos (by simp), List.tail_cons, pyDigits?_natDec,
        Option.map_some']
      simp only [Option.some.injEq, Int.ofNat_eq_coe]
      omega
    · have hiDec : intDec i = natDec i.toNat := by unfold intDec; rw [if_neg hI]
      rw [hiDec]
      rcases List.exists_cons_of_ne_nil (natDec_ne_nil i.toNat) with ⟨d, ds, hds⟩
      have hdig : 48 ≤ d ∧ d ≤ 57 :=
        mem_natDec_digit (by rw [hds]; exact List.mem_cons_self _ _)
      rw [hds, if_neg (by simp; omega), if_neg (by simp; omega), ← hds,
        pyDigits?_natDec, Option.map_some']
      simp only [Option.some.injEq, Int.ofNat_eq_coe]
      omega
  · intro hAny
    rw [List.any_eq_true] at hAny
    obtain ⟨c, hc, hlt⟩ := hAny
    simp only [decide_eq_true_eq] at hlt
    rcases mem_intDec hc with h | h <;> omega

theorem parseIntBody_encode (i : Int) (rest : List Nat) :
    parseIntBody (intDec i ++ 101 :: rest) = .ok (i, rest) := by
  have h101 : (101 : Nat) ∉ intDec i := by
    intro hc
    rcases mem_intDec hc with h | h <;> omega
  have hA : intDec i ≠ [] := intDec_ne_nil i
  have hB : intDec i ≠ [45, 48] := by
    unfold intDec
    split
    · rename_i hI
      intro hEq
      have htl : natDec i.natAbs = [48] := by
        have := congrArg List.tail hEq
        simpa using this
      have : i.natAbs = 0 := by
        have h := congrArg digitsToNat htl
        rw [digitsToNat_natDec] at h
        simpa [digitsToNat] using h
      omega
    · intro hEq
      have : (45 : Nat) ∈ natDec i.toNat := by rw [hEq]; exact List.mem_cons_self _ _
      have := mem_natDec_digit this
      omega
  have hC : ¬(((intDec i).head? = some 48) ∧ 1 < (intDec i).length) := by
    rintro ⟨h48, hlen⟩
    by_cases hI : i < 0
    · rw [show intDec i = 45 :: natDec i.natAbs from by unfold intDec; rw [if_pos hI]]
        at h48
      simp only [List.head?_cons, Option.some.injEq] at h48
      omega
    · rw [show intDec i = natDec i.toNat from by unfold intDec; rw [if_neg hI]]
        at h48 hlen
      have hz : i.toNat = 0 := (natDec_head_eq_zero_iff _).mp h48
      rw [hz, natDec_small 0 (by omega)] at hlen
      simp at hlen
  have hD : ¬(((intDec i).head? = some 45) ∧
      ((intDec i).length = 1 ∨ (intDec i).get? 1 = some 48)) := by
    rintro ⟨h45, hrest⟩
    by_cases hI : i < 0
    · rw [show intDec i = 45 :: natDec i.natAbs from by unfold intDec; rw [if_pos hI]]
        at hrest
      rcases List.exists_cons_of_ne_nil (natDec_ne_nil i.natAbs) with ⟨d, ds, hds⟩
      rw [hds] at hrest
      rcases hrest with hlen | hget
      · simp at hlen
      · simp only [List.get?_cons_succ, List.get?_cons_zero, Option.some.injEq] at hget
        have hh : (natDec i.natAbs).head? = some 48 := by rw [hds, hget]; rfl
        have := (natDec_head_eq_zero_iff _).mp hh
        omega
    · rw [show intDec i = natDec i.toNat from by unfold intDec; rw [if_neg hI]] at h45
      rcases List.exists_cons_of_ne_nil (natDec_ne_nil i.toNat) with ⟨d, ds, hds⟩
      rw [hds] at h45
      simp only [List.head?_cons, Option.some.injEq] at h45
      have : 48 ≤ d ∧ d ≤ 57 :=
        mem_natDec_digit (by rw [hds]; exact List.mem_cons_self _ _)
      omega
  unfold parseIntBody
  simp only [splitAtByte_spec rest h101, if_neg hA, if_neg hB]
  rw [if_neg, if_neg]
  · rw [pyInt?_intDec]
  · simp only [Bool.and_eq_true, decide_eq_true_eq, Bool.or_eq_true]
    intro hcon
    exact hD ⟨hcon.1, hcon.2⟩
  · simp only [Bool.and_eq_true, decide_eq_true_eq]
    intro hcon
    exact hC hcon

theorem parseBytestring_encode (s rest : List Nat) :
    parseBytestring (natDec s.length ++ 58 :: (s ++ rest)) = .ok (s, rest) := by
  have h58 : (58 : Nat) ∉ natDec s.length := by
    intro hc
    have := mem_natDec_digit hc
    omega
  unfold parseBytestring
  simp only [splitAtByte_spec (s ++ rest) h58, if_neg (natDec_ne_nil s.length)]
  rw [if_neg, if_neg, if_neg]
  · rw [digitsToNat_natDec]
    simp only [Except.ok.injEq, Prod.mk.injEq]
    constructor
    · rw [List.take_append_of_le_length (Nat.le_refl _), List.take_length]
    · rw [List.drop_append_of_le_length (Nat.le_refl _), List.drop_length,
        List.nil_append]
  · rw [digitsToNat_natDec]
    simp
  · simp only [Bool.and_eq_true, decide_eq_true_eq]
    rintro ⟨h48, hlen⟩
    have hz : s.length = 0 := (natDec_head_eq_zero_iff _).mp h48
    rw [hz, natDec_small 0 (by omega)] at hlen
    simp at hlen
  · simp [natDec_all_digit]

theorem encode_length_ge_two (v : Bencode) : 2 ≤ (encode v).length := by
  cases v with
  | int i =>
    have := intDec_ne_nil i
    rw [encode]
    simp only [List.length_cons, List.length_append, List.length_cons, List.length_nil]
    have : (intDec i).length ≠ 0 := fun h => this (List.length_eq_zero.mp h)
    omega
  | str s =>
    have := natDec_ne_nil s.length
    rw [encode]
    simp only [List.length_append, List.length_cons]
    have : (natDec s.length).length ≠ 0 := fun h => this (List.length_eq_zero.mp h)
    omega
  | list xs => rw [encode]; simp
  | dict kvs => rw [encode]; simp

theorem encode_cons (v : Bencode) : ∃ c cs, encode v = c :: cs ∧ c ≠ 101 := by
  cases v with
  | int i =>
    refine ⟨105, intDec i ++ [101], ?_, by omega⟩
    rw [encode]
  | str s =>
    rcases List.exists_cons_of_ne_nil (natDec_ne_nil s.length) with ⟨d, ds, hds⟩
    have hdig : 48 ≤ d ∧ d ≤ 57 :=
      mem_natDec_digit (by rw [hds]; exact List.mem_cons_self _ _)
    refine ⟨d, ds ++ 58 :: s, ?_, by omega⟩
    rw [encode, hds, List.cons_append]
  | list xs =>
    refine ⟨108, encodeList xs ++ [101], ?_, by omega⟩
    rw [encode]
  | dict kvs =>
    refine ⟨100, encodeEntries (sortPairs kvs) ++ [101], ?_, by omega⟩
    rw [encode]

theorem parseValue_encode :
    ∀ v : Bencode, ∀ rest : List Nat, ∀ fuel : Nat,
      (encode v).length ≤ fuel →
      parseValue fuel (encode v ++ rest) = .ok (canon v, rest) := by
  intro v
  induction v using Bencode.myInduction with
  | hint i =>
    intro rest fuel hfuel
    have h2 := encode_length_ge_two (.int i)
    obtain ⟨f, rfl⟩ : ∃ f, fuel = f + 1 := ⟨fuel - 1, by omega⟩
    rw [encode, List.cons_append, List.append_assoc, List.cons_append, List.nil_append]
    simp only [parseValue, if_true]
    rw [parseIntBody_encode]
    simp [canon]
  | hstr s =>
    intro rest fuel hfuel
    have h2 := encode_length_ge_two (.str s)
    obtain ⟨f, rfl⟩ : ∃ f, fuel = f + 1 := ⟨fuel - 1, by omega⟩
    rcases List.exists_cons_of_ne_nil (natDec_ne_nil s.length) with ⟨d, ds, hds⟩
    have hdig : 48 ≤ d ∧ d ≤ 57 :=
      mem_natDec_digit (by rw [hds]; exact List.mem_cons_self _ _)
    rw [encode, List.append_assoc, List.cons_append, hds, List.cons_append]
    simp only [parseValue]
    rw [if_neg (by omega), if_neg (by omega), if_neg (by omega),
      if_pos (by simp [isDigit]; omega)]
    rw [show d :: (ds ++ 58 :: (s ++ rest)) = natDec s.length ++ 58 :: (s ++ rest) from
      by rw [hds, List.cons_append]]
    rw [parseBytestring_encode]
    simp [canon]
  | hlist xs IH =>
    intro rest fuel hfuel
    have h2 := encode_length_ge_two (.list xs)
    obtain ⟨f, rfl⟩ : ∃ f, fuel = f + 1 := ⟨fuel - 1, by omega⟩
    rw [encode, List.cons_append, List.append_assoc, List.cons_append, List.nil_append]
    simp only [parseValue, if_true]
    have hf : (encodeList xs).length + 1 ≤ f := by
      rw [encode] at hfuel
      simp only [List.length_cons, List.length_append, List.length_nil] at hfuel
      omega
    have hitems : parseItems f (encodeList xs ++ 101 :: rest) = .ok (canonL xs, rest) := by
      clear hfuel h2
      induction xs generalizing f rest with
      | nil =>
        obtain ⟨g, rfl⟩ : ∃ g, f = g + 1 := ⟨f - 1, by omega⟩
        rw [encodeList, List.nil_append]
        simp only [parseItems, if_true]
        simp [canonL]
      | cons x xs ih =>
        have hx2 := encode_length_ge_two x
        have hlen : (encodeList (x :: xs)).length =
            (encode x).length + (encodeList xs).length := by
          rw [encodeList]; simp
        obtain ⟨g, rfl⟩ : ∃ g, f = g + 1 := ⟨f - 1, by omega⟩
        rcases encode_cons x with ⟨c, cs, hcons, hc101⟩
        rw [encodeList, List.append_assoc, hcons, List.cons_append]
        simp only [parseItems]
        rw [if_neg hc101]
        rw [show c :: (cs ++ (encodeList xs ++ 101 :: rest)) =
            encode x ++ (encodeList xs ++ 101 :: rest) from by rw [hcons, List.cons_append]]
        rw [IH x (List.mem_cons_self x xs) _ g (by omega)]
        simp only [ih (fun z hz => IH z (List.mem_cons_of_mem x hz)) rest g (by omega),
          canonL]
    rw [hitems]
    simp [canon]
  | hdict kvs IH =>
    intro rest fuel hfuel
    have h2 := encode_length_ge_two (.dict kvs)
    obtain ⟨f, rfl⟩ : ∃ f, fuel = f + 1 := ⟨fuel - 1, by omega⟩
    rw [encode, List.cons_append, List.append_assoc, List.cons_append, List.nil_append]
    simp only [parseValue, if_true]
    have IH' : ∀ kv ∈ sortPairs kvs, ∀ r : List Nat, ∀ g : Nat,
        (encode kv.2).length ≤ g →
        parseValue g (encode kv.2 ++ r) = .ok (canon kv.2, r) := by
      intro kv hkv
      exact IH kv ((sortPairs_perm kvs).mem_iff.mp hkv)
    have hf : (encodeEntries (sortPairs kvs)).length + 1 ≤ f := by
      rw [encode] at hfuel
      simp only [List.length_cons, List.length_append, List.length_nil] at hfuel
      omega
    have hentries : ∀ l : List (List Nat × Bencode),
        (∀ kv ∈ l, ∀ r : List Nat, ∀ g : Nat,
          (encode kv.2).length ≤ g →
          parseValue g (encode kv.2 ++ r) = .ok (canon kv.2, r)) →
        ∀ acc r g, (encodeEntries l).length + 1 ≤ g →
        parseEntries g (encodeEntries l ++ 101 :: r) acc = .ok (canonD l acc, r) := by
      intro l
      induction l with
      | nil =>
        intro _ acc r g hg
        obtain ⟨g', rfl⟩ : ∃ g', g = g' + 1 := ⟨g - 1, by omega⟩
        rw [encodeEntries, List.nil_append]
        simp only [parseEntries, if_true]
        simp [canonD]
      | cons kv l ih =>
        intro hIH acc r g hg
        rcases kv with ⟨k, v⟩
        have hv2 := encode_length_ge_two v
        have hk1 : 1 ≤ (natDec k.length).length := by
          have h := natDec_ne_nil k.length
          have : (natDec k.length).length ≠ 0 := fun hz => h (List.length_eq_zero.mp hz)
          omega
        have hlen : (encodeEntries ((k, v) :: l)).length =
            (natDec k.length).length + 1 + k.length + (encode v).length +
              (encodeEntries l).length := by
          rw [encodeEntries]; simp; omega
        obtain ⟨g', rfl⟩ : ∃ g', g = g' + 1 := ⟨g - 1, by omega⟩
        rcases List.exists_cons_of_ne_nil (natDec_ne_nil k.length) with ⟨d, ds, hds⟩
        have hdig : 48 ≤ d ∧ d ≤ 57 :=
          mem_natDec_digit (by rw [hds]; exact List.mem_cons_self _ _)
        have hdata : encodeEntries ((k, v) :: l) ++ 101 :: r =
            natDec k.length ++ 58 :: (k ++ (encode v ++ (encodeEntries l ++ 101 :: r))) := by
          rw [encodeEntries]; simp
        rw [hdata, hds, List.cons_append]
        simp only [parseEntries]
        rw [if_neg (by omega)]
        rw [show d :: (ds ++ 58 :: (k ++ (encode v ++ (encodeEntries l ++ 101 :: r)))) =
            natDec k.length ++ 58 :: (k ++ (encode v ++ (encodeEntries l ++ 101 :: r)))
            from by rw [hds, List.cons_append]]
        rw [parseBytestring_encode]
        simp only [hIH (k, v) (List.mem_cons_self _ _) (encodeEntries l ++ 101 :: r) g'
            (by show (encode v).length ≤ g'; omega),
          ih (fun z hz => hIH z (List.mem_cons_of_mem _ hz)) (dinsert acc k (canon v))
            r g' (by omega),
          canonD]
    rw [hentries (sortPairs kvs) IH' [] rest f hf]
    simp [canon]

theorem decode_encode (v : Bencode) : decode (encode v) = .ok (canon v) := by
  rw [decode]
  have h := parseValue_encode v [] ((encode v).length + 1) (by omega)
  rw [List.append_nil] at h
  rw [h]
  simp

theorem nodupKeys_iff (l : List (List Nat × Bencode)) :
    nodupKeys l = true ↔ (l.map Prod.fst).Nodup := by
  induction l with
  | nil => simp [nodupKeys]
  | cons kv rest ih =>
    rcases kv with ⟨k, v⟩
    simp only [nodupKeys, Bool.and_eq_true, Bool.not_eq_true', List.any_eq_false,
      List.map_cons, List.nodup_cons, ih]
    constructor
    · rintro ⟨h1, h2⟩
      refine ⟨?_, h2⟩
      intro hk
      rcases List.mem_map.mp hk with ⟨kv', hkv', hfst⟩
      have := h1 kv' hkv'
      simp [hfst] at this
    · rintro ⟨h1, h2⟩
      refine ⟨?_, h2⟩
      intro kv' hkv'
      simp only [beq_iff_eq]
      intro hfst
      exact h1 (List.mem_map.mpr ⟨kv', hkv', hfst⟩)

theorem nodupKeys_sortPairs {l : List (List Nat × Bencode)}
    (h : nodupKeys l = true) : nodupKeys (sortPairs l) = true := by
  rw [nodupKeys_iff] at h ⊢
  exact (((sortPairs_perm l).map Prod.fst).nodup_iff).mpr h

theorem lookupB_of_mem {k : List Nat} {v : Bencode}
    {l : List (List Nat × Bencode)} (hmem : (k, v) ∈ l)
    (hnd : nodupKeys l = true) : lookupB k l = some v := by
  induction l with
  | nil => cases hmem
  | cons kv rest ih =>
    rcases kv with ⟨k', v'⟩
    simp only [nodupKeys, Bool.and_eq_true, Bool.not_eq_true', List.any_eq_false] at hnd
    rcases List.mem_cons.mp hmem with h | h
    · injection h with hk hv
      rw [lookupB, if_pos hk.symm, ← hv]
    · rw [lookupB]
      by_cases hk : k' = k
      · exfalso
        have := hnd.1 (k, v) h
        subst hk
        simp at this
      · rw [if_neg hk]
        exact ih h hnd.2

theorem dinsert_of_not_key {k : List Nat} {v : Bencode}
    {acc : List (List Nat × Bencode)} (h : k ∉ acc.map Prod.fst) :
    dinsert acc k v = acc ++ [(k, v)] := by
  induction acc with
  | nil => rfl
  | cons kv rest ih =>
    rcases kv with ⟨k', v'⟩
    simp only [List.map_cons, List.mem_cons, not_or] at h
    rw [dinsert, if_neg (fun he => h.1 he.symm), List.cons_append, ih h.2]

theorem canonD_eq : ∀ (l acc : List (List Nat × Bencode)),
    nodupKeys l = true →
    (∀ k ∈ l.map Prod.fst, k ∉ acc.map Prod.fst) →
    canonD l acc = acc ++ l.map (fun kv => (kv.1, canon kv.2)) := by
  intro l
  induction l with
  | nil => intro acc _ _; rw [canonD]; simp
  | cons kv rest ih =>
    intro acc hnd hdisj
    rcases kv with ⟨k, v⟩
    simp only [nodupKeys, Bool.and_eq_true, Bool.not_eq_true', List.any_eq_false] at hnd
    rw [canonD, dinsert_of_not_key (hdisj k (by simp))]
    rw [ih _ hnd.2]
    · simp
    · intro k' hk'
      simp only [List.map_append, List.map_cons, List.map_nil, List.mem_append,
        List.mem_cons, List.not_mem_nil, or_false, not_or]
      refine ⟨hdisj k' (by simp [hk']), ?_⟩
      intro hkk
      rcases List.mem_map.mp hk' with ⟨kv', hkv', hfst⟩
      have := hnd.1 kv' hkv'
      rw [beq_iff_eq] at this
      rw [← hfst] at hkk
      exact this hkk

theorem wfBD_iff (l : List (List Nat × Bencode)) :
    wfBD l = true ↔ ∀ kv ∈ l, wfB kv.2 = true := by
  induction l with
  | nil => simp [wfBD]
  | cons kv rest ih =>
    rcases kv with ⟨k, v⟩
    rw [wfBD, Bool.and_eq_true, ih]
    constructor
    · rintro ⟨h1, h2⟩ kv' hkv'
      rcases List.mem_cons.mp hkv' with h | h
      · subst h; exact h1
      · exact h2 kv' h
    · intro h
      exact ⟨h (k, v) (List.mem_cons_self _ _),
        fun kv' hkv' => h kv' (List.mem_cons_of_mem _ hkv')⟩

theorem pyEqEntries_of_lookup {b : List (List Nat × Bencode)} :
    ∀ l : List (List Nat × Bencode),
    (∀ kv ∈ l, ∃ v0, lookupB kv.1 b = some v0 ∧ pyEq kv.2 v0 = true) →
    pyEqEntries l b = true := by
  intro l
  induction l with
  | nil => intro _; rw [pyEqEntries]
  | cons kv rest ih =>
    intro h
    rcases kv with ⟨k, v⟩
    rw [pyEqEntries, Bool.and_eq_true]
    rcases h (k, v) (List.mem_cons_self _ _) with ⟨v0, hl, hpe⟩
    constructor
    · rw [hl]
      exact hpe
    · exact ih (fun kv' hkv' => h kv' (List.mem_cons_of_mem _ hkv'))

theorem pyEq_canon : ∀ v : Bencode, wfB v = true → pyEq (canon v) v = true := by
  intro v
  induction v using Bencode.myInduction with
  | hint i => intro _; simp [canon, pyEq]
  | hstr s => intro _; simp [canon, pyEq]
  | hlist xs IH =>
    intro hwf
    rw [wfB] at hwf
    rw [canon, pyEq]
    have : ∀ l : List Bencode, wfBL l = true → (∀ x ∈ l, wfB x = true →
        pyEq (canon x) x = true) → pyEqList (canonL l) l = true := by
      intro l
      induction l with
      | nil => intro _ _; rw [canonL, pyEqList]
      | cons x rest ihl =>
        intro hw hx
        rw [wfBL, Bool.and_eq_true] at hw
        rw [canonL, pyEqList, Bool.and_eq_true]
        exact ⟨hx x (List.mem_cons_self _ _) hw.1,
          ihl hw.2 (fun z hz => hx z (List.mem_cons_of_mem _ hz))⟩
    exact this xs hwf IH
  | hdict kvs IH =>
    intro hwf
    rw [wfB, Bool.and_eq_true] at hwf
    rcases hwf with ⟨hnd, hvals⟩
    rw [wfBD_iff] at hvals
    have hndS := nodupKeys_sortPairs hnd
    rw [canon, canonD_eq (sortPairs kvs) [] hndS (by simp), List.nil_append]
    rw [pyEq, Bool.and_eq_true]
    constructor
    · simp [List.length_map, (sortPairs_perm kvs).length_eq]
    · apply pyEqEntries_of_lookup
      intro kv' hkv'
      rcases List.mem_map.mp hkv' with ⟨⟨k0, v0⟩, hmem, hkv0⟩
      have hmem' : (k0, v0) ∈ kvs := (sortPairs_perm kvs).mem_iff.mp hmem
      refine ⟨v0, ?_, ?_⟩
      · rw [← hkv0]
        exact lookupB_of_mem hmem' hnd
      · rw [← hkv0]
        exact IH (k0, v0) hmem' (hvals (k0, v0) hmem')

/-- C3: bencode round-trip. For every value built from byte strings,
integers, lists and dictionaries with distinct byte-string keys (the
values Python's decoder can produce), decoding the encoding succeeds and
returns a value that is Python-equal to the original; the encoder is a
pure function of the value, so its output is identical on every
invocation. -/
theorem C3_bencode_roundtrip (v : Bencode) (hwf : wfB v = true) :
    decode (encode v) = .ok (canon v) ∧ pyEq (canon v) v = true :=
  ⟨decode_encode v, pyEq_canon v hwf⟩

/-- Witness for C3 at a concrete nested value. -/
theorem C3_bencode_roundtrip_witness :
    wfB (.dict [([102, 111, 111], .int 42),
      ([98, 97, 114], .list [.str [115, 112, 97, 109], .int (-7)])]) = true ∧
    decode (encode (.dict [([102, 111, 111], .int 42),
      ([98, 97, 114], .list [.str [115, 112, 97, 109], .int (-7)])])) =
      .ok (canon (.dict [([102, 111, 111], .int 42),
        ([98, 97, 114], .list [.str [115, 112, 97, 109], .int (-7)])])) ∧
    pyEq (canon (.dict [([102, 111, 111], .int 42),
      ([98, 97, 114], .list [.str [115, 112, 97, 109], .int (-7)])]))
      (.dict [([102, 111, 111], .int 42),
        ([98, 97, 114], .list [.str [115, 112, 97, 109], .int (-7)])]) = true := by
  refine ⟨by decide, ?_⟩
  have h := C3_bencode_roundtrip (.dict [([102, 111, 111], .int 42),
    ([98, 97, 114], .list [.str [115, 112, 97, 109], .int (-7)])]) (by decide)
  exact h

/-! ## Decoder failure cases (claim C7) -/

/-- Error kinds named by the specification's failure list: trailing data,
the malformed-integer cases, length-prefix leading zeros, overlong length,
and end of input inside a container. -/
def statedBencodeError : BErr → Bool
  | .extraData => true
  | .negZeroInt => true
  | .leadingZeroInt => true
  | .invalidNegInt => true
  | .leadingZeroLength => true
  | .lengthExceeds => true
  | .endOfDataList => true
  | .endOfDataDict => true
  | _ => false

theorem parseItems_noTerm : ∀ vs : List Bencode, ∀ fuel : Nat,
    (encodeList vs).length + 1 ≤ fuel →
    parseItems fuel (encodeList vs) = .error .endOfDataList := by
  intro vs
  induction vs with
  | nil =>
    intro fuel hfuel
    obtain ⟨f, rfl⟩ : ∃ f, fuel = f + 1 := ⟨fuel - 1, by omega⟩
    rw [encodeList, parseItems]
  | cons x xs ih =>
    intro fuel hfuel
    have hx2 := encode_length_ge_two x
    have hlen : (encodeList (x :: xs)).length =
        (encode x).length + (encodeList xs).length := by
      rw [encodeList]; simp
    obtain ⟨f, rfl⟩ : ∃ f, fuel = f + 1 := ⟨fuel - 1, by omega⟩
    rcases encode_cons x with ⟨c, cs, hcons, hc101⟩
    rw [encodeList, hcons, List.cons_append]
    simp only [parseItems]
    rw [if_neg hc101]
    rw [show c :: (cs ++ encodeList xs) = encode x ++ encodeList xs from
      by rw [hcons, List.cons_append]]
    simp only [parseValue_encode x (encodeList xs) f (by omega), ih f (by omega)]

theorem parseEntries_noTerm : ∀ kvs : List (List Nat × Bencode), ∀ fuel : Nat,
    ∀ acc : List (List Nat × Bencode),
    (encodeEntries kvs).length + 1 ≤ fuel →
    parseEntries fuel (encodeEntries kvs) acc = .error .endOfDataDict := by
  intro kvs
  induction kvs with
  | nil =>
    intro fuel acc hfuel
    obtain ⟨f, rfl⟩ : ∃ f, fuel = f + 1 := ⟨fuel - 1, by omega⟩
    rw [encodeEntries, parseEntries]
  | cons kv l ih =>
    intro fuel acc hfuel
    rcases kv with ⟨k, v⟩
    have hv2 := encode_length_ge_two v
    have hk1 : 1 ≤ (natDec k.length).length := by
      have h := natDec_ne_nil k.length
      have : (natDec k.length).length ≠ 0 := fun hz => h (List.length_eq_zero.mp hz)
      omega
    have hlen : (encodeEntries ((k, v) :: l)).length =
        (natDec k.length).length + 1 + k.length + (encode v).length +
          (encodeEntries l).length := by
      rw [encodeEntries]; simp; omega
    obtain ⟨f, rfl⟩ : ∃ f, fuel = f + 1 := ⟨fuel - 1, by omega⟩
    rcases List.exists_cons_of_ne_nil (natDec_ne_nil k.length) with ⟨d, ds, hds⟩
    have hdig : 48 ≤ d ∧ d ≤ 57 :=
      mem_natDec_digit (by rw [hds]; exact List.mem_cons_self _ _)
    have hdata : encodeEntries ((k, v) :: l) =
        natDec k.length ++ 58 :: (k ++ (encode v ++ encodeEntries l)) := by
      rw [encodeEntries]; simp
    rw [hdata, hds, List.cons_append]
    simp only [parseEntries]
    rw [if_neg (by omega)]
    rw [show d :: (ds ++ 58 :: (k ++ (encode v ++ encodeEntries l))) =
        natDec k.length ++ 58 :: (k ++ (encode v ++ encodeEntries l)) from
      by rw [hds, List.cons_append]]
    rw [parseBytestring_encode]
    simp only [parseValue_encode v (encodeEntries l) f (by omega),
      ih f (dinsert acc k (canon v)) (by omega)]

/-- C7 counterexample: the single byte `x` makes the decoder fail with an
invalid-prefix error, a failure case outside the specification's list, so
the decoder does not fail exactly in the stated cases. -/
theorem C7_counterexample :
    decode [120] = .error .invalidPrefix ∧
    statedBencodeError .invalidPrefix = false := by
  constructor
  · rfl
  · rfl

/-- C7 (amended): each failure case the specification lists does raise the
corresponding parse error: trailing bytes after a complete top-level value;
an integer literal equal to `-0`, with a redundant leading zero, or with a
zero digit right after the minus sign; a byte-string length prefix with a
redundant leading zero; a declared length exceeding the remaining input;
and end of input inside a list or dictionary. (The decoder additionally
fails on malformed inputs outside this list, such as an invalid prefix
byte.) -/
theorem C7_decoder_error_cases :
    (∀ data : List Nat, ∀ v : Bencode, ∀ rest : List Nat,
      parseValue (data.length + 1) data = .ok (v, rest) → rest ≠ [] →
      decode data = .error .extraData) ∧
    (∀ rest : List Nat, parseIntBody ([45, 48] ++ 101 :: rest) = .error .negZeroInt) ∧
    (∀ ib rest : List Nat, ib.head? = some 48 → 1 < ib.length → (101 : Nat) ∉ ib →
      parseIntBody (ib ++ 101 :: rest) = .error .leadingZeroInt) ∧
    (∀ ib rest : List Nat, ib.head? = some 45 → ib.get? 1 = some 48 →
      ib ≠ [45, 48] → (101 : Nat) ∉ ib →
      parseIntBody (ib ++ 101 :: rest) = .error .invalidNegInt) ∧
    (∀ lb rest : List Nat, lb.all isDigit = true → lb.head? = some 48 →
      1 < lb.length → parseBytestring (lb ++ 58 :: rest) = .error .leadingZeroLength) ∧
    (∀ n : Nat, ∀ rest : List Nat, rest.length < n →
      parseBytestring (natDec n ++ 58 :: rest) = .error .lengthExceeds) ∧
    (∀ vs : List Bencode, decode (108 :: encodeList vs) = .error .endOfDataList) ∧
    (∀ kvs : List (List Nat × Bencode),
      decode (100 :: encodeEntries kvs) = .error .endOfDataDict) := by
  refine ⟨?_, ?_, ?_, ?_, ?_, ?_, ?_, ?_⟩
  · intro data v rest hok hne
    rw [decode, hok]
    simp only [if_neg hne]
  · intro rest
    rw [parseIntBody, splitAtByte_spec rest (by decide)]
    rfl
  · intro ib rest h48 hlen h101
    have hne : ib ≠ [] := by
      intro h; rw [h] at h48; cases h48
    have hnm : ib ≠ [45, 48] := by
      intro h; rw [h] at h48; cases h48
    rw [parseIntBody]
    simp only [splitAtByte_spec rest h101]
    rw [if_neg hne, if_neg hnm, if_pos (by simp [h48, hlen])]
  · intro ib rest h45 hget hne45 h101
    have hne : ib ≠ [] := by
      intro h; rw [h] at h45; cases h45
    have h48no : ¬(ib.head? = some 48 ∧ 1 < ib.length) := by
      rintro ⟨h, _⟩; rw [h45] at h; cases h
    rw [parseIntBody]
    simp only [splitAtByte_spec rest h101]
    rw [if_neg hne, if_neg hne45,
      if_neg (by simp only [Bool.and_eq_true, decide_eq_true_eq]; exact h48no),
      if_pos (by
        simp only [Bool.and_eq_true, Bool.or_eq_true, decide_eq_true_eq]
        exact ⟨h45, Or.inr (by simpa using hget)⟩)]
  · intro lb rest hdig h48 hlen
    have h58 : (58 : Nat) ∉ lb := by
      intro hmem
      rw [List.all_eq_true] at hdig
      have := hdig 58 hmem
      simp [isDigit] at this
    have hne : lb ≠ [] := by
      intro h; rw [h] at h48; cases h48
    rw [parseBytestring]
    simp only [splitAtByte_spec rest h58]
    rw [if_neg hne, if_neg (by simp [hdig]), if_pos (by simp [h48, hlen])]
  · intro n rest hlt
    have h58 : (58 : Nat) ∉ natDec n := by
      intro hmem
      have := mem_natDec_digit hmem
      omega
    have hz : ¬((natDec n).head? = some 48 ∧ 1 < (natDec n).length) := by
      rintro ⟨h, hl⟩
      have := (natDec_head_eq_zero_iff n).mp h
      rw [this, natDec_small 0 (by omega)] at hl
      simp at hl
    rw [parseBytestring]
    simp only [splitAtByte_spec rest h58]
    rw [if_neg (natDec_ne_nil n), if_neg (by simp [natDec_all_digit]),
      if_neg (by simp only [Bool.and_eq_true, decide_eq_true_eq]; exact hz)]
    simp only [digitsToNat_natDec]
    rw [if_pos hlt]
  · intro vs
    rw [decode]
    have hlen : (108 :: encodeList vs).length = (encodeList vs).length + 1 := by simp
    have : parseValue ((108 :: encodeList vs).length + 1) (108 :: encodeList vs) =
        .error .endOfDataList := by
      rw [hlen]
      simp only [parseValue, if_true]
      rw [parseItems_noTerm vs _ (by omega)]
      simp
    rw [this]
  · intro kvs
    rw [decode]
    have hlen : (100 :: encodeEntries kvs).length = (encodeEntries kvs).length + 1 := by
      simp
    have : parseValue ((100 :: encodeEntries kvs).length + 1) (100 :: encodeEntries kvs) =
        .error .endOfDataDict := by
      rw [hlen]
      simp only [parseValue, if_true]
      rw [parseEntries_noTerm kvs _ [] (by omega)]
      simp
    rw [this]

/-- Witness for C7 at concrete malformed inputs. -/
theorem C7_decoder_error_cases_witness :
    decode [52, 58, 115, 112, 97, 109, 88] = .error .extraData ∧
    parseIntBody [45, 48, 101] = .error .negZeroInt ∧
    parseIntBody [48, 49, 101] = .error .leadingZeroInt ∧
    parseIntBody [45, 48, 49, 101] = .error .invalidNegInt ∧
    parseBytestring [48, 52, 58] = .error .leadingZeroLength ∧
    parseBytestring [53, 58, 115, 112, 97, 109] = .error .lengthExceeds ∧
    decode (108 :: encodeList [.int 1]) = .error .endOfDataList ∧
    decode (100 :: encodeEntries []) = .error .endOfDataDict := by
  obtain ⟨h1, h2, h3, h4, h5, h6, h7, h8⟩ := C7_decoder_error_cases
  refine ⟨?_, ?_, ?_, ?_, ?_, ?_, ?_, ?_⟩
  · exact h1 [52, 58, 115, 112, 97, 109, 88] (.str [115, 112, 97, 109]) [88]
      (by decide) (by decide)
  · exact h2 []
  · exact h3 [48, 49] [] (by decide) (by decide) (by decide)
  · exact h4 [45, 48, 49] [] (by decide) (by decide) (by decide) (by decide)
  · exact h5 [48, 52] [] (by decide) (by decide) (by decide)
  · have := h6 5 [115, 112, 97, 109] (by decide)
    simpa [natDec_small 5 (by omega)] using this
  · exact h7 [.int 1]
  · exact h8 []

/-! ## SHA-1 (hashlib.sha1, as used by tracker_http.calculate_info_hash and
the piece verification in download_optimized.py) -/

/-- Truncate to a 32-bit word. -/
def w32 (n : Nat) : Nat := n % 4294967296

/-- Rotate a 32-bit word left by `s` bits. -/
def rotl32 (s x : Nat) : Nat := w32 ((w32 x <<< s) ||| (w32 x >>> (32 - s)))

/-- Big-endian 4-byte rendering of a 32-bit word. -/
def beBytes4 (x : Nat) : List Nat :=
  [x / 16777216 % 256, x / 65536 % 256, x / 256 % 256, x % 256]

/-- Big-endian 8-byte rendering of a 64-bit length field. -/
def beBytes8 (x : Nat) : List Nat := beBytes4 (x / 4294967296) ++ beBytes4 x

/-- SHA-1 padding: one 0x80 byte, zeros to 56 mod 64, then the bit length. -/
def sha1pad (msg : List Nat) : List Nat :=
  msg ++ 128 :: (List.replicate ((119 - msg.length % 64) % 64) 0 ++
    beBytes8 (msg.length * 8))

/-- Split into 64-byte chunks. -/
def chunks64 : List Nat → List (List Nat)
  | [] => []
  | c :: rest => (c :: rest).take 64 :: chunks64 ((c :: rest).drop 64)
  termination_by l => l.length
  decreasing_by simp [List.length_drop] <;> omega

/-- Group bytes into big-endian 32-bit words. -/
def beWords : List Nat → List Nat
  | b0 :: b1 :: b2 :: b3 :: rest =>
    (((b0 * 256 + b1) * 256 + b2) * 256 + b3) :: beWords rest
  | _ => []

/-- Extend 16 words to the 80-word message schedule. -/
def extendW (ws : List Nat) : List Nat :=
  (List.range 80).foldl (fun acc i =>
    if i < 16 then acc ++ [ws.getD i 0]
    else acc ++ [rotl32 1 ((acc.getD (i-3) 0 ^^^ acc.getD (i-8) 0) ^^^
      (acc.getD (i-14) 0 ^^^ acc.getD (i-16) 0))]) []

/-- One SHA-1 round. -/
def sha1round (i : Nat) (st : Nat × Nat × Nat × Nat × Nat) (wi : Nat) :
    Nat × Nat × Nat × Nat × Nat :=
  let (a, b, c, d, e) := st
  let f :=
    if i < 20 then (b &&& c) ||| (w32 (b ^^^ 4294967295) &&& d)
    else if i < 40 then (b ^^^ c) ^^^ d
    else if i < 60 then ((b &&& c) ||| (b &&& d)) ||| (c &&& d)
    else (b ^^^ c) ^^^ d
  let k :=
    if i < 20 then 1518500249
    else if i < 40 then 1859775393
    else if i < 60 then 2400959708
    else 3395469782
  (w32 (rotl32 5 a + f + e + k + wi), a, rotl32 30 b, c, d)

/-- Compress one 64-byte chunk into the running state. -/
def processChunk (h : Nat × Nat × Nat × Nat × Nat) (chunk : List Nat) :
    Nat × Nat × Nat × Nat × Nat :=
  let ws := extendW (beWords chunk)
  let r := (List.range 80).foldl (fun st i => sha1round i st (ws.getD i 0)) h
  (w32 (h.1 + r.1), w32 (h.2.1 + r.2.1), w32 (h.2.2.1 + r.2.2.1),
    w32 (h.2.2.2.1 + r.2.2.2.1), w32 (h.2.2.2.2 + r.2.2.2.2))

/-- SHA-1 digest (20 bytes) of a byte string. -/
def sha1 (msg : List Nat) : List Nat :=
  let hs := (chunks64 (sha1pad msg)).foldl processChunk
    (1732584193, 4023233417, 2562383102, 271733878, 3285377520)
  beBytes4 hs.1 ++ (beBytes4 hs.2.1 ++ (beBytes4 hs.2.2.1 ++
    (beBytes4 hs.2.2.2.1 ++ beBytes4 hs.2.2.2.2)))

/-- Embedding of `tracker_http.calculate_info_hash`: SHA-1 of the bencoded
info dictionary. -/
def calculate_info_hash (info_dict : Bencode) : List Nat :=
  sha1 (encode info_dict)

theorem sha1_length (msg : List Nat) : (sha1 msg).length = 20 := by
  rw [sha1]
  simp [beBytes4]

/-! ## Canonicality of the bencode encoder (claim C4) -/

/-- Ascending key order between adjacent emitted dictionary entries. -/
def entryLe (p q : List Nat × Bencode) : Prop := lexLt q.1 p.1 = false

theorem sorted_insertEntry (x : List Nat × Bencode) :
    ∀ {l : List (List Nat × Bencode)},
    List.Pairwise entryLe l → List.Pairwise entryLe (insertEntry x l) := by
  intro l
  induction l with
  | nil => intro _; simp [insertEntry, List.pairwise_cons]
  | cons y ys ih =>
    intro h
    rcases List.pairwise_cons.mp h with ⟨hy, hys⟩
    rw [insertEntry]
    split
    · rename_i hxy
      refine List.pairwise_cons.mpr ⟨?_, h⟩
      intro z hz
      rcases List.mem_cons.mp hz with hzy | hzys
      · subst hzy
        show lexLt z.1 x.1 = false
        cases hyx : lexLt z.1 x.1 with
        | false => rfl
        | true => exact absurd (lexLt_asymm hxy hyx) id
      · show lexLt z.1 x.1 = false
        cases hzx : lexLt z.1 x.1 with
        | false => rfl
        | true =>
          have hzyLt : lexLt z.1 y.1 = true := lexLt_trans hzx hxy
          have := hy z hzys
          rw [entryLe] at this
          rw [this] at hzyLt
          cases hzyLt
    · rename_i hxy
      rw [Bool.not_eq_true] at hxy
      refine List.pairwise_cons.mpr ⟨?_, ih hys⟩
      intro z hz
      rcases List.mem_cons.mp ((insertEntry_perm x ys).mem_iff.mp hz) with hzx | hzys
      · subst hzx
        exact hxy
      · exact hy z hzys

theorem sortPairs_sorted (l : List (List Nat × Bencode)) :
    List.Pairwise entryLe (sortPairs l) := by
  induction l with
  | nil => simp [sortPairs]
  | cons x xs ih => exact sorted_insertEntry x ih

/-- Keys emitted by the encoder are in ascending lexicographic byte order. -/
theorem sortPairs_keys_sorted (l : List (List Nat × Bencode)) :
    List.Pairwise (fun a b : List Nat => lexLt a b = true ∨ a = b)
      ((sortPairs l).map Prod.fst) := by
  rw [List.pairwise_map]
  refine (sortPairs_sorted l).imp ?_
  intro p q hpq
  rw [entryLe] at hpq
  cases hab : lexLt p.1 q.1 with
  | true => exact Or.inl rfl
  | false => exact Or.inr (lexLt_connex hab hpq)

theorem sortPairs_keys_sorted_strict {l : List (List Nat × Bencode)}
    (hnd : nodupKeys l = true) :
    List.Pairwise (fun a b : List Nat => lexLt a b = true)
      ((sortPairs l).map Prod.fst) := by
  have h1 := sortPairs_keys_sorted l
  have h2 : ((sortPairs l).map Prod.fst).Nodup :=
    (nodupKeys_iff _).mp (nodupKeys_sortPairs hnd)
  refine (h1.and h2).imp ?_
  rintro a b ⟨h | h, hne⟩
  · exact h
  · exact absurd h hne

theorem mem_of_lookupB {k : List Nat} {w : Bencode} :
    ∀ {l : List (List Nat × Bencode)}, lookupB k l = some w → (k, w) ∈ l := by
  intro l
  induction l with
  | nil => intro h; cases h
  | cons kv rest ih =>
    rcases kv with ⟨k', v'⟩
    rw [lookupB]
    split
    · rename_i he
      intro h
      injection h with hw
      subst he hw
      exact List.mem_cons_self _ _
    · intro h
      exact List.mem_cons_of_mem _ (ih h)

theorem lookupB_sortPairs {k : List Nat} {w : Bencode}
    {l : List (List Nat × Bencode)} (hnd : nodupKeys l = true)
    (h : lookupB k l = some w) : lookupB k (sortPairs l) = some w :=
  lookupB_of_mem ((sortPairs_perm l).mem_iff.mpr (mem_of_lookupB h))
    (nodupKeys_sortPairs hnd)

theorem encodeEntries_eq_of :
    ∀ l1 l2 : List (List Nat × Bencode),
    l1.map Prod.fst = l2.map Prod.fst →
    nodupKeys l2 = true →
    (∀ kv ∈ l1, ∃ w, lookupB kv.1 l2 = some w ∧ encode kv.2 = encode w) →
    encodeEntries l1 = encodeEntries l2 := by
  intro l1
  induction l1 with
  | nil =>
    intro l2 hkeys _ _
    cases l2 with
    | nil => rfl
    | cons kv t => simp at hkeys
  | cons kv t1 ih =>
    intro l2 hkeys hnd2 hval
    rcases kv with ⟨k, v⟩
    cases l2 with
    | nil => simp at hkeys
    | cons kv2 t2 =>
      rcases kv2 with ⟨k2, w2⟩
      simp only [List.map_cons, List.cons.injEq] at hkeys
      rcases hkeys with ⟨hk, hkeys'⟩
      subst hk
      rcases hval (k, v) (List.mem_cons_self _ _) with ⟨w, hlw, hew⟩
      rw [lookupB, if_pos rfl] at hlw
      injection hlw with hww
      subst hww
      have hnd2' : nodupKeys t2 = true := by
        rw [nodupKeys, Bool.and_eq_true] at hnd2
        exact hnd2.2
      have hkt2 : k ∉ t2.map Prod.fst := by
        have := (nodupKeys_iff _).mp hnd2
        simp only [List.map_cons, List.nodup_cons] at this
        exact this.1
      rw [encodeEntries, encodeEntries, hew]
      rw [ih t2 hkeys' hnd2']
      intro kv' hkv'
      rcases hval kv' (List.mem_cons_of_mem _ hkv') with ⟨w', hlw', hew'⟩
      have hne : k ≠ kv'.1 := by
        intro he
        apply hkt2
        rw [he, ← hkeys']
        exact List.mem_map.mpr ⟨kv', hkv', rfl⟩
      rw [lookupB, if_neg hne] at hlw'
      exact ⟨w', hlw', hew'⟩

theorem wfBL_iff (l : List Bencode) :
    wfBL l = true ↔ ∀ x ∈ l, wfB x = true := by
  induction l with
  | nil => simp [wfBL]
  | cons x rest ih =>
    rw [wfBL, Bool.and_eq_true, ih]
    constructor
    · rintro ⟨h1, h2⟩ z hz
      rcases List.mem_cons.mp hz with h | h
      · subst h; exact h1
      · exact h2 z h
    · intro h
      exact ⟨h x (List.mem_cons_self _ _), fun z hz => h z (List.mem_cons_of_mem _ hz)⟩

/-- Two Python-equal well-formed values have identical canonical encodings:
the encoder's key sort makes the byte output depend only on the key→value
map of each dictionary. -/
theorem encode_eq_of_pyEq :
    ∀ v w : Bencode, wfB v = true → wfB w = true → pyEq v w = true →
      encode v = encode w := by
  intro v
  induction v using Bencode.myInduction with
  | hint i =>
    intro w _ _ hpe
    cases w <;> rw [pyEq] at hpe <;> try cases hpe
    rename_i j
    rw [beq_iff_eq] at hpe
    rw [hpe]
  | hstr s =>
    intro w _ _ hpe
    cases w <;> rw [pyEq] at hpe <;> try cases hpe
    rename_i t
    rw [beq_iff_eq] at hpe
    rw [hpe]
  | hlist xs IH =>
    intro w hwv hww hpe
    cases w <;> rw [pyEq] at hpe <;> try cases hpe
    rename_i ys
    rw [wfB] at hwv hww
    have hgen : ∀ t1 : List Bencode,
        (∀ x ∈ t1, ∀ w, wfB x = true → wfB w = true → pyEq x w = true →
          encode x = encode w) →
        wfBL t1 = true → ∀ t2, wfBL t2 = true → pyEqList t1 t2 = true →
        encodeList t1 = encodeList t2 := by
      intro t1
      induction t1 with
      | nil =>
        intro _ _ t2 _ hp
        cases t2 with
        | nil => rfl
        | cons y t' => rw [pyEqList] at hp; cases hp
      | cons x t ihl =>
        intro hIH hw1 t2 hw2 hp
        cases t2 with
        | nil => rw [pyEqList] at hp; cases hp
        | cons y t' =>
          rw [pyEqList, Bool.and_eq_true] at hp
          rw [wfBL, Bool.and_eq_true] at hw1 hw2
          rw [encodeList, encodeList,
            hIH x (List.mem_cons_self _ _) y hw1.1 hw2.1 hp.1,
            ihl (fun z hz => hIH z (List.mem_cons_of_mem _ hz)) hw1.2 t' hw2.2 hp.2]
    rw [encode, encode, hgen xs IH hwv ys hww hpe]
  | hdict kvs IH =>
    intro w hwv hww hpe
    cases w <;> rw [pyEq] at hpe <;> try cases hpe
    rename_i kvs2
    rw [Bool.and_eq_true, beq_iff_eq] at hpe
    rcases hpe with ⟨hlen, hent⟩
    rw [wfB, Bool.and_eq_true] at hwv hww
    rcases hwv with ⟨hndA, hvalsA⟩
    rcases hww with ⟨hndB, hvalsB⟩
    rw [wfBD_iff] at hvalsA hvalsB
    rw [encode, encode]
    have hlookup : ∀ kv ∈ kvs, ∃ v0, lookupB kv.1 kvs2 = some v0 ∧
        pyEq kv.2 v0 = true := by
      have : ∀ l : List (List Nat × Bencode), pyEqEntries l kvs2 = true →
          ∀ kv ∈ l, ∃ v0, lookupB kv.1 kvs2 = some v0 ∧ pyEq kv.2 v0 = true := by
        intro l
        induction l with
        | nil => intro _ kv hkv; cases hkv
        | cons p rest ih =>
          rcases p with ⟨k0, v0⟩
          rw [pyEqEntries, Bool.and_eq_true]
          rintro ⟨h1, h2⟩ kv hkv
          rcases List.mem_cons.mp hkv with h | h
          · subst h
            cases hl : lookupB k0 kvs2 with
            | none => rw [hl] at h1; cases h1
            | some w0 =>
              rw [hl] at h1
              exact ⟨w0, rfl, h1⟩
          · exact ih h2 kv h
      exact this kvs hent
    -- the two key multisets agree, so the sorted key sequences are equal
    have hsub : kvs.map Prod.fst ⊆ kvs2.map Prod.fst := by
      intro k hk
      rcases List.mem_map.mp hk with ⟨kv, hkv, hfst⟩
      rcases hlookup kv hkv with ⟨v0, hl, _⟩
      rcases List.mem_map.mp (show kv.1 ∈ kvs2.map Prod.fst from
        List.mem_map.mpr ⟨(kv.1, v0), mem_of_lookupB hl, rfl⟩) with ⟨kv', hkv', hfst'⟩
      exact hfst ▸ List.mem_map.mpr ⟨kv', hkv', hfst'⟩
    have hperm : (kvs.map Prod.fst).Perm (kvs2.map Prod.fst) := by
      refine List.Subperm.perm_of_length_le
        (List.Nodup.subperm ((nodupKeys_iff _).mp hndA) hsub) ?_
      simp [hlen]
    have hkeysPerm : ((sortPairs kvs).map Prod.fst).Perm
        ((sortPairs kvs2).map Prod.fst) :=
      (((sortPairs_perm kvs).map Prod.fst).trans hperm).trans
        ((sortPairs_perm kvs2).map Prod.fst).symm
    have hkeysEq : (sortPairs kvs).map Prod.fst = (sortPairs kvs2).map Prod.fst := by
      have hanti : ∀ a b : List Nat, lexLt a b = true → lexLt b a = true → a = b :=
        fun a b h1 h2 => absurd (lexLt_asymm h1 h2) id
      haveI : IsAntisymm (List Nat) (fun a b => lexLt a b = true) := ⟨hanti⟩
      exact List.eq_of_perm_of_sorted hkeysPerm
        (sortPairs_keys_sorted_strict hndA) (sortPairs_keys_sorted_strict hndB)
    have hent' : ∀ kv ∈ sortPairs kvs, ∃ w0, lookupB kv.1 (sortPairs kvs2) = some w0 ∧
        encode kv.2 = encode w0 := by
      intro kv hkv
      have hkvm : kv ∈ kvs := (sortPairs_perm kvs).mem_iff.mp hkv
      rcases hlookup kv hkvm with ⟨v0, hl, hpe0⟩
      refine ⟨v0, lookupB_sortPairs hndB hl, ?_⟩
      exact IH kv hkvm v0 (hvalsA kv hkvm)
        (hvalsB (kv.1, v0) (mem_of_lookupB hl)) hpe0
    rw [encodeEntries_eq_of (sortPairs kvs) (sortPairs kvs2) hkeysEq
      (nodupKeys_sortPairs hndB) hent']

/-- C4: the encoder emits dictionary keys in ascending lexicographic byte
order, and consequently two well-formed bencode values that are equal as
Python key/value maps — such as info dictionaries decoded from differently
ordered inputs — yield the same 20-byte SHA-1 digest from
`calculate_info_hash`. -/
theorem C4_canonical_encoder_info_hash :
    (∀ kvs : List (List Nat × Bencode),
      List.Pairwise (fun a b : List Nat => lexLt a b = true ∨ a = b)
        ((sortPairs kvs).map Prod.fst)) ∧
    (∀ d1 d2 : Bencode, wfB d1 = true → wfB d2 = true → pyEq d1 d2 = true →
      calculate_info_hash d1 = calculate_info_hash d2 ∧
        (calculate_info_hash d1).length = 20) := by
  refine ⟨sortPairs_keys_sorted, ?_⟩
  intro d1 d2 h1 h2 hpe
  refine ⟨?_, sha1_length _⟩
  rw [calculate_info_hash, calculate_info_hash, encode_eq_of_pyEq d1 d2 h1 h2 hpe]

/-! ## Peer wire protocol (src/peer_protocol.py) -/

/-- Embedding of `peer_protocol.create_message`: 4-byte big-endian length
prefix (1 + payload length), one id byte, then the payload. `bytes([id])`
and `struct.pack` require `id < 256` and `1 + len(payload) < 2^32`; those
bounds appear as hypotheses of the theorems. -/
def create_message (message_id : Nat) (payload : List Nat) : List Nat :=
  beBytes4 (1 + payload.length) ++ message_id :: payload

/-- Embedding of `peer_protocol.parse_message`. Returns
`(message_id?, payload?, bytes_consumed)`: `(none, none, 0)` when fewer
than 4 bytes or fewer than `4 + length` bytes are available, keep-alive
`(none, some [], 4)` when the length prefix is 0, else the id byte, the
`length - 1` payload bytes, and `4 + length` consumed. -/
def parse_message (data : List Nat) : Option Nat × Option (List Nat) × Nat :=
  match data with
  | b0 :: b1 :: b2 :: b3 :: rest =>
    let length := ((b0 * 256 + b1) * 256 + b2) * 256 + b3
    if length = 0 then (none, some [], 4)
    else if rest.length < length then (none, none, 0)
    else (some (rest.headD 0), some ((rest.drop 1).take (length - 1)), 4 + length)
  | _ => (none, none, 0)

/-- A message constructible by `create_message` without a Python error. -/
def wfMsg (m : Nat × List Nat) : Prop :=
  m.1 < 256 ∧ 1 + m.2.length < 4294967296

theorem beBytes4_be32 {n : Nat} (h : n < 4294967296) :
    ((n / 16777216 % 256 * 256 + n / 65536 % 256) * 256 + n / 256 % 256) * 256 +
      n % 256 = n := by
  omega

theorem create_message_length (id : Nat) (pl : List Nat) :
    (create_message id pl).length = 4 + (1 + pl.length) := by
  rw [create_message, beBytes4]
  simp
  omega

theorem parse_message_short {data : List Nat} (h : data.length < 4) :
    parse_message data = (none, none, 0) := by
  match data with
  | [] => rfl
  | [_] => rfl
  | [_, _] => rfl
  | [_, _, _] => rfl
  | _ :: _ :: _ :: _ :: _ => exact absurd h (by simp)

theorem parse_create_message (id : Nat) (pl : List Nat) (rest : List Nat)
    (hwf : wfMsg (id, pl)) :
    parse_message (create_message id pl ++ rest) =
      (some id, some pl, 4 + (1 + pl.length)) := by
  rcases hwf with ⟨_, hlen⟩
  rw [create_message, beBytes4]
  simp only [List.cons_append, List.nil_append]
  simp only [parse_message]
  simp only [beBytes4_be32 hlen]
  rw [if_neg (by omega), if_neg (by simp; omega)]
  simp only [List.headD_cons, List.drop_succ_cons, List.drop_zero, Prod.mk.injEq]
  refine ⟨trivial, ?_, trivial⟩
  rw [show 1 + pl.length - 1 = pl.length from by omega]
  simp [List.take_left]

theorem parse_message_prefix {id : Nat} {pl p q : List Nat}
    (hwf : wfMsg (id, pl)) (happ : p ++ q = create_message id pl)
    (hne : q ≠ []) : parse_message p = (none, none, 0) := by
  rcases hwf with ⟨_, hlen⟩
  have hq : 0 < q.length := List.length_pos.mpr hne
  by_cases hp4 : p.length < 4
  · exact parse_message_short hp4
  · obtain ⟨a, b, c, d, t, rfl⟩ : ∃ a b c d t, p = a :: b :: c :: d :: t := by
      match p, hp4 with
      | a :: b :: c :: d :: t, _ => exact ⟨a, b, c, d, t, rfl⟩
      | [], h => simp at h
      | [_], h => simp at h
      | [_, _], h => simp at h
      | [_, _, _], h => simp at h
    rw [create_message, beBytes4] at happ
    simp only [List.cons_append, List.nil_append] at happ
    injection happ with ha happ
    injection happ with hb happ
    injection happ with hc happ
    injection happ with hd happ
    have htail : t.length + q.length = 1 + pl.length := by
      have := congrArg List.length happ
      simp at this
      omega
    simp only [parse_message]
    rw [ha, hb, hc, hd]
    simp only [beBytes4_be32 hlen]
    rw [if_neg (by omega), if_pos (by omega)]

/-- Total bytes of a list of framed messages, in order. -/
def catMsgs : List (Nat × List Nat) → List Nat
  | [] => []
  | m :: t => create_message m.1 m.2 ++ catMsgs t

/-- Total bytes of a list of received chunks, in order. -/
def catBytes : List (List Nat) → List Nat
  | [] => []
  | c :: t => c ++ catBytes t

/-- Drain loop run by the sessions in download_optimized.py: repeatedly
call `parse_message` and strip the consumed bytes until it reports
`consumed = 0`. -/
def drainMsgs : Nat → List Nat → List (Option Nat × List Nat) × List Nat
  | 0, buf => ([], buf)
  | fuel+1, buf =>
    let r := parse_message buf
    if r.2.2 = 0 then ([], buf)
    else
      let d := drainMsgs fuel (buf.drop r.2.2)
      ((r.1, r.2.1.getD []) :: d.1, d.2)

/-- Drain a buffer completely; each successful parse consumes at least 4
bytes, so the buffer length bounds the number of messages. -/
def processBuffer (buf : List Nat) : List (Option Nat × List Nat) × List Nat :=
  drainMsgs buf.length buf

/-- Feed chunks of a byte stream through the accumulate-and-drain loop,
collecting the emitted messages and the leftover partial buffer. -/
def feedChunks (chunks : List (List Nat)) : List (Option Nat × List Nat) × List Nat :=
  chunks.foldl (fun st c =>
    let r := processBuffer (st.2 ++ c)
    (st.1 ++ r.1, r.2)) ([], [])

theorem drainMsgs_stop {p : List Nat} (h : (parse_message p).2.2 = 0) :
    ∀ fuel, drainMsgs fuel p = ([], p) := by
  intro fuel
  cases fuel with
  | zero => rfl
  | succ f =>
    rw [drainMsgs]
    simp [h]

theorem drainMsgs_spec : ∀ ms : List (Nat × List Nat), (∀ m ∈ ms, wfMsg m) →
    ∀ p : List Nat, (parse_message p).2.2 = 0 → ∀ fuel, ms.length ≤ fuel →
    drainMsgs fuel (catMsgs ms ++ p) =
      (ms.map (fun m => (some m.1, m.2)), p) := by
  intro ms
  induction ms with
  | nil =>
    intro _ p hp fuel _
    rw [catMsgs, List.nil_append, drainMsgs_stop hp fuel]
    simp
  | cons m t ih =>
    intro hwf p hp fuel hfuel
    obtain ⟨f, rfl⟩ : ∃ f, fuel = f + 1 := ⟨fuel - 1, by simp at hfuel; omega⟩
    rw [catMsgs, List.append_assoc, drainMsgs]
    have hparse := parse_create_message m.1 m.2 (catMsgs t ++ p)
      (hwf m (List.mem_cons_self _ _))
    simp only [hparse]
    rw [if_neg (by simp)]
    have hdrop : (create_message m.1 m.2 ++ (catMsgs t ++ p)).drop
        (4 + (1 + m.2.length)) = catMsgs t ++ p := by
      rw [← create_message_length m.1 m.2]
      exact List.drop_left _ _
    simp only [hdrop]
    rw [ih (fun z hz => hwf z (List.mem_cons_of_mem _ hz)) p hp f (by simp at hfuel; omega)]
    simp

theorem catMsgs_length_ge (ms : List (Nat × List Nat)) :
    ms.length ≤ (catMsgs ms).length := by
  induction ms with
  | nil => simp [catMsgs]
  | cons m t ih =>
    rw [catMsgs]
    simp only [List.length_append, List.length_cons, create_message_length]
    omega

theorem parse_message_nil : parse_message [] = (none, none, 0) := rfl

theorem stream_decomp : ∀ ms : List (Nat × List Nat), (∀ m ∈ ms, wfMsg m) →
    ∀ q r : List Nat, q ++ r = catMsgs ms →
    ∃ ms1 ms2 p, ms = ms1 ++ ms2 ∧ q = catMsgs ms1 ++ p ∧
      (parse_message p).2.2 = 0 ∧ p ++ r = catMsgs ms2 := by
  intro ms
  induction ms with
  | nil =>
    intro _ q r happ
    rw [catMsgs] at happ
    rw [List.append_eq_nil] at happ
    exact ⟨[], [], [], rfl, by simp [catMsgs, happ.1],
      by rw [parse_message_nil], by simp [catMsgs, happ.1, happ.2]⟩
  | cons m t ih =>
    intro hwf q r happ
    rcases Nat.lt_or_ge q.length (create_message m.1 m.2).length with hlt | hge
    · -- q is a strict prefix of the first frame: the parser wants more data
      refine ⟨[], m :: t, q, rfl, by simp [catMsgs], ?_, happ⟩
      have hqpre : q = (create_message m.1 m.2).take q.length := by
        have h1 : (q ++ r).take q.length = q := by
          rw [List.take_append_of_le_length (Nat.le_refl _), List.take_length]
        rw [happ, catMsgs] at h1
        rw [List.take_append_of_le_length (by omega)] at h1
        exact h1.symm
      have : parse_message q = (none, none, 0) := by
        refine parse_message_prefix (hwf m (List.mem_cons_self _ _))
          (q := (create_message m.1 m.2).drop q.length) ?_ ?_
        · have h0 := List.take_append_drop q.length (create_message m.1 m.2)
          rw [← hqpre] at h0
          exact h0
        · intro hnil
          have := congrArg List.length hnil
          simp at this
          omega
      rw [this]
    · -- q contains the whole first frame
      have hqtake : q.take (create_message m.1 m.2).length = create_message m.1 m.2 := by
        have h1 : (q ++ r).take (create_message m.1 m.2).length =
            q.take (create_message m.1 m.2).length := by
          rw [List.take_append_of_le_length hge]
        rw [happ, catMsgs, List.take_append_of_le_length (Nat.le_refl _),
          List.take_length] at h1
        exact h1.symm
      have hqsplit : q = create_message m.1 m.2 ++ q.drop (create_message m.1 m.2).length := by
        have h0 := (List.take_append_drop (create_message m.1 m.2).length q).symm
        rw [hqtake] at h0
        exact h0
      have htail : q.drop (create_message m.1 m.2).length ++ r = catMsgs t := by
        have : create_message m.1 m.2 ++ (q.drop (create_message m.1 m.2).length ++ r) =
            create_message m.1 m.2 ++ catMsgs t := by
          rw [← List.append_assoc, ← hqsplit, happ, catMsgs]
        exact List.append_cancel_left this
      rcases ih (fun z hz => hwf z (List.mem_cons_of_mem _ hz)) _ r htail with
        ⟨ms1, ms2, p, hmseq, hq', hp, hpr⟩
      refine ⟨m :: ms1, ms2, p, by rw [hmseq, List.cons_append], ?_, hp, hpr⟩
      rw [catMsgs, List.append_assoc, ← hq', ← hqsplit]

theorem feed_go : ∀ chunks : List (List Nat), ∀ ms2 : List (Nat × List Nat),
    ∀ buf : List Nat, ∀ acc : List (Option Nat × List Nat),
    (∀ m ∈ ms2, wfMsg m) → (parse_message buf).2.2 = 0 →
    buf ++ catBytes chunks = catMsgs ms2 →
    chunks.foldl (fun st c =>
      let r := processBuffer (st.2 ++ c)
      (st.1 ++ r.1, r.2)) (acc, buf) =
    (acc ++ ms2.map (fun m => (some m.1, m.2)), []) := by
  intro chunks
  induction chunks with
  | nil =>
    intro ms2 buf acc hwf hstop happ
    rw [catBytes, List.append_nil] at happ
    cases ms2 with
    | nil =>
      rw [catMsgs] at happ
      rw [List.foldl_nil, happ]
      simp
    | cons m t =>
      exfalso
      rw [catMsgs] at happ
      rw [happ, parse_create_message m.1 m.2 (catMsgs t)
        (hwf m (List.mem_cons_self _ _))] at hstop
      simp at hstop
  | cons c cs ih =>
    intro ms2 buf acc hwf hstop happ
    rw [List.foldl_cons]
    rcases stream_decomp ms2 hwf (buf ++ c) (catBytes cs)
      (by rw [List.append_assoc, ← catBytes, happ]) with
      ⟨msA, msB, p, hms, hq, hp, hpr⟩
    have hwfA : ∀ m ∈ msA, wfMsg m := fun m hm => hwf m (hms ▸ List.mem_append_left _ hm)
    have hwfB : ∀ m ∈ msB, wfMsg m := fun m hm => hwf m (hms ▸ List.mem_append_right _ hm)
    have hproc : processBuffer (buf ++ c) = (msA.map (fun m => (some m.1, m.2)), p) := by
      rw [processBuffer, hq]
      refine drainMsgs_spec msA hwfA p hp _ ?_
      have h1 := catMsgs_length_ge msA
      have h2 : (catMsgs msA ++ p).length = (catMsgs msA).length + p.length := by simp
      omega
    simp only [hproc]
    rw [ih msB p (acc ++ msA.map (fun m => (some m.1, m.2))) hwfB hp hpr]
    rw [hms]
    simp [List.map_append]

/-- C5: the streaming parser returns need-more-data (consuming nothing)
on fewer than 4 bytes or fewer than 4+length bytes, parses a zero length
prefix as a keep-alive consuming exactly 4 bytes, parses a complete frame
into its id byte, its length−1 payload bytes and 4+length consumed, and
re-emits any concatenation of valid messages split at arbitrary chunk
boundaries as exactly the original message sequence. -/
theorem C5_message_framing :
    (∀ data : List Nat, data.length < 4 → parse_message data = (none, none, 0)) ∧
    (∀ b0 b1 b2 b3 : Nat, ∀ rest : List Nat,
      ((b0 * 256 + b1) * 256 + b2) * 256 + b3 = 0 →
      parse_message (b0 :: b1 :: b2 :: b3 :: rest) = (none, some [], 4)) ∧
    (∀ b0 b1 b2 b3 : Nat, ∀ rest : List Nat,
      0 < ((b0 * 256 + b1) * 256 + b2) * 256 + b3 →
      (b0 :: b1 :: b2 :: b3 :: rest : List Nat).length <
        4 + (((b0 * 256 + b1) * 256 + b2) * 256 + b3) →
      parse_message (b0 :: b1 :: b2 :: b3 :: rest) = (none, none, 0)) ∧
    (∀ id : Nat, ∀ pl rest : List Nat, wfMsg (id, pl) →
      parse_message (create_message id pl ++ rest) =
        (some id, some pl, 4 + (1 + pl.length))) ∧
    (∀ chunks : List (List Nat), ∀ ms : List (Nat × List Nat),
      (∀ m ∈ ms, wfMsg m) → catBytes chunks = catMsgs ms →
      feedChunks chunks = (ms.map (fun m => (some m.1, m.2)), [])) := by
  refine ⟨fun data h => parse_message_short h, ?_, ?_, parse_create_message, ?_⟩
  · intro b0 b1 b2 b3 rest h0
    simp only [parse_message]
    rw [if_pos h0]
  · intro b0 b1 b2 b3 rest hpos hlen
    simp only [parse_message]
    rw [if_neg (by omega), if_pos (by simp at hlen; omega)]
  · intro chunks ms hwf happ
    rw [feedChunks]
    exact feed_go chunks ms [] [] hwf (by rw [parse_message_nil]) (by simpa using happ)

/-- Witness for C5: the two-byte interested message split mid-prefix. -/
theorem C5_message_framing_witness :
    ([0, 0, 0] : List Nat).length < 4 ∧
    parse_message [0, 0, 0] = (none, none, 0) ∧
    parse_message [0, 0, 0, 0, 7] = (none, some [], 4) ∧
    parse_message [0, 0, 0, 2, 9] = (none, none, 0) ∧
    wfMsg (2, []) ∧
    parse_message (create_message 2 [] ++ [255]) = (some 2, some [], 4 + 1) ∧
    catBytes [[0, 0], [0, 1, 2]] = catMsgs [(2, [])] ∧
    feedChunks [[0, 0], [0, 1, 2]] = ([(some 2, [])], []) := by
  obtain ⟨h1, h2, h3, h4, h5⟩ := C5_message_framing
  refine ⟨by decide, h1 [0, 0, 0] (by decide), h2 0 0 0 0 [7] (by decide),
    h3 0 0 0 2 [9] (by decide) (by decide), by constructor <;> decide,
    h4 2 [] [255] (by constructor <;> decide), by decide, ?_⟩
  have := h5 [[0, 0], [0, 1, 2]] [(2, [])]
    (by intro m hm; simp at hm; subst hm; constructor <;> decide) (by decide)
  simpa using this

/-! ## Handshake (claim C6) -/

/-- The 19 ASCII bytes of "BitTorrent protocol". -/
def pstrBytes : List Nat :=
  [66, 105, 116, 84, 111, 114, 114, 101, 110, 116, 32, 112, 114, 111, 116,
   111, 99, 111, 108]

/-- Embedding of `peer_protocol.create_handshake`. -/
def create_handshake (info_hash peer_id : List Nat) : List Nat :=
  19 :: (pstrBytes ++ (List.replicate 8 0 ++ (info_hash ++ peer_id)))

/-- Embedding of `peer_protocol.parse_handshake`: checks the length, the
pstrlen byte and the protocol string, then returns the peer's info_hash
and peer_id fields without comparing them to anything. -/
def parse_handshake (data : List Nat) : Except String (List Nat × List Nat) :=
  if data.length < 68 then .error "Handshake too short"
  else if data.headD 0 ≠ 19 then .error "Invalid pstrlen"
  else if (data.drop 1).take 19 ≠ pstrBytes then .error "Invalid protocol"
  else .ok ((data.drop 28).take 20, (data.drop 48).take 20)

/-- The handshake step of `OptimizedDownloader.download_piece_from_peer`
(lines 141-151): after reading exactly 68 bytes the session calls
`parse_handshake(response)` and DISCARDS its result; the session fails
only if `parse_handshake` raises. The session's own info hash, available
as `self.info_hash`, is never compared against the response. -/
def handshake_accepts (self_info_hash : List Nat) (response : List Nat) : Bool :=
  match parse_handshake response with
  | .ok _ => true
  | .error _ => false

/-- C6 counterexample: a well-formed 68-byte handshake whose info_hash
field (all zeros) differs from ours (all ones) is accepted, so acceptance
is not equivalent to protocol-match plus info_hash-match. -/
theorem C6_counterexample :
    ¬ (handshake_accepts (List.replicate 20 1)
        (create_handshake (List.replicate 20 0) (List.replicate 20 2)) = true ↔
      ((create_handshake (List.replicate 20 0) (List.replicate 20 2)).headD 0 = 19 ∧
       ((create_handshake (List.replicate 20 0) (List.replicate 20 2)).drop 1).take 19 =
         pstrBytes ∧
       ((create_handshake (List.replicate 20 0) (List.replicate 20 2)).drop 28).take 20 =
         List.replicate 20 1)) := by
  decide

/-- C6 (amended): after reading exactly 68 bytes, the session's handshake
step succeeds precisely when the length-prefix byte is 0x13 and the
protocol string matches; the received info_hash field is not verified, so
any correctly framed handshake is accepted regardless of its info_hash. -/
theorem C6_handshake_no_hash_check :
    (∀ ourHash resp : List Nat, resp.length = 68 →
      (handshake_accepts ourHash resp = true ↔
        resp.headD 0 = 19 ∧ (resp.drop 1).take 19 = pstrBytes)) ∧
    (∀ ourHash ih pid : List Nat, ih.length = 20 → pid.length = 20 →
      handshake_accepts ourHash (create_handshake ih pid) = true) := by
  have hmain : ∀ ourHash resp : List Nat, resp.length = 68 →
      (handshake_accepts ourHash resp = true ↔
        resp.headD 0 = 19 ∧ (resp.drop 1).take 19 = pstrBytes) := by
    intro ourHash resp hlen
    rw [handshake_accepts]
    rw [show parse_handshake resp =
        (if resp.headD 0 ≠ 19 then .error "Invalid pstrlen"
         else if (resp.drop 1).take 19 ≠ pstrBytes then .error "Invalid protocol"
         else .ok ((resp.drop 28).take 20, (resp.drop 48).take 20)) from by
      rw [parse_handshake, if_neg (by omega)]]
    rw [List.headD_eq_head?_getD, List.drop_one] at *
    by_cases h1 : resp.head?.getD 0 = 19
    · rw [if_neg (fun hc => hc h1)]
      by_cases h2 : resp.tail.take 19 = pstrBytes
      · rw [if_neg (fun hc => hc h2)]
        simp [h1, h2]
      · rw [if_pos h2]
        simp [h2]
    · rw [if_pos h1]
      simp [h1]
  refine ⟨hmain, ?_⟩
  intro ourHash ih pid hih hpid
  have hlen : (create_handshake ih pid).length = 68 := by
    rw [create_handshake]
    simp [pstrBytes, hih, hpid]
  rw [hmain ourHash _ hlen]
  refine ⟨rfl, ?_⟩
  rw [create_handshake]
  rw [List.drop_succ_cons, List.drop_zero]
  rw [show (19 : Nat) = pstrBytes.length from rfl, List.take_left]

/-- Witness for C6 at a concrete handshake. -/
theorem C6_handshake_no_hash_check_witness :
    (create_handshake (List.replicate 20 0) (List.replicate 20 2)).length = 68 ∧
    (handshake_accepts (List.replicate 20 1)
        (create_handshake (List.replicate 20 0) (List.replicate 20 2)) = true ↔
      (create_handshake (List.replicate 20 0) (List.replicate 20 2)).headD 0 = 19 ∧
        ((create_handshake (List.replicate 20 0) (List.replicate 20 2)).drop 1).take 19 =
          pstrBytes) ∧
    handshake_accepts (List.replicate 20 1)
      (create_handshake (List.replicate 20 0) (List.replicate 20 2)) = true := by
  refine ⟨by decide, ?_, ?_⟩
  · exact C6_handshake_no_hash_check.1 (List.replicate 20 1)
      (create_handshake (List.replicate 20 0) (List.replicate 20 2)) (by decide)
  · exact C6_handshake_no_hash_check.2 (List.replicate 20 1)
      (List.replicate 20 0) (List.replicate 20 2) (by decide) (by decide)

/-! ## Peer registry and choking policy (src/peer_manager.py)

Timestamps and rates are Python floats used only in comparisons and
linear updates; they are modelled as rationals. A peer's dict key
`f"{ip}:{port}"` is modelled as a single `pid` value; distinct endpoints
have distinct pids. -/

structure PeerStats where
  pid : Nat
  downloaded : Nat
  uploaded : Nat
  last_download_time : Rat
  last_upload_time : Rat
  download_rate : Rat
  upload_rate : Rat
  is_choked_by_us : Bool
  is_choking_us : Bool
  is_interested_in_us : Bool
  we_are_interested : Bool
  connection_time : Rat
deriving DecidableEq, Repr

instance : Inhabited PeerStats :=
  ⟨⟨0, 0, 0, 0, 0, 0, 0, true, true, false, false, 0⟩⟩

/-- A freshly constructed `PeerStats(ip, port)` at time `now`. -/
def PeerStats.init (pid : Nat) (now : Rat) : PeerStats :=
  { pid := pid, downloaded := 0, uploaded := 0, last_download_time := now,
    last_upload_time := now, download_rate := 0, upload_rate := 0,
    is_choked_by_us := true, is_choking_us := true,
    is_interested_in_us := false, we_are_interested := false,
    connection_time := now }

/-- Embedding of `PeerStats.update_downloaded`: bump the byte counter,
update the rate EMA when time advanced, stamp the time. -/
def update_downloaded (p : PeerStats) (bytes_count : Nat) (now : Rat) : PeerStats :=
  let time_diff := now - p.last_download_time
  if 0 < time_diff then
    { p with
      downloaded := p.downloaded + bytes_count,
      download_rate := (4/5) * p.download_rate + (1/5) * (bytes_count / time_diff),
      last_download_time := now }
  else
    { p with downloaded := p.downloaded + bytes_count, last_download_time := now }

/-- Embedding of `PeerStats.update_uploaded`. -/
def update_uploaded (p : PeerStats) (bytes_count : Nat) (now : Rat) : PeerStats :=
  let time_diff := now - p.last_upload_time
  if 0 < time_diff then
    { p with
      uploaded := p.uploaded + bytes_count,
      upload_rate := (4/5) * p.upload_rate + (1/5) * (bytes_count / time_diff),
      last_upload_time := now }
  else
    { p with uploaded := p.uploaded + bytes_count, last_upload_time := now }

structure PeerManager where
  peers : List PeerStats
  max_unchoked_peers : Nat
  optimistic_unchoke_interval : Rat
  last_optimistic_unchoke : Rat
  total_downloaded : Nat
  total_uploaded : Nat
deriving DecidableEq, Repr

/-- Embedding of `PeerManager.add_peer`. -/
def add_peer (m : PeerManager) (pid : Nat) (now : Rat) : PeerManager :=
  if m.peers.any (fun p => p.pid == pid) then m
  else { m with peers := m.peers ++ [PeerStats.init pid now] }

/-- Embedding of `PeerManager.get_peer`: dict lookup by `ip:port`. -/
def get_peer (m : PeerManager) (pid : Nat) : Option PeerStats :=
  m.peers.find? (fun p => p.pid == pid)

/-- Embedding of `PeerManager.update_download`: a silent no-op when the
endpoint is unknown; otherwise the found peer object is mutated and the
manager total bumped. -/
def update_download (m : PeerManager) (pid : Nat) (n : Nat) (now : Rat) : PeerManager :=
  match get_peer m pid with
  | none => m
  | some _ =>
    { m with
      peers := m.peers.map (fun p => if p.pid = pid then update_downloaded p n now else p),
      total_downloaded := m.total_downloaded + n }

/-- Embedding of `PeerManager.update_upload`. -/
def update_upload (m : PeerManager) (pid : Nat) (n : Nat) (now : Rat) : PeerManager :=
  match get_peer m pid with
  | none => m
  | some _ =>
    { m with
      peers := m.peers.map (fun p => if p.pid = pid then update_uploaded p n now else p),
      total_uploaded := m.total_uploaded + n }

/-- Stable insertion keeping the list sorted by `download_rate`
descending; extensionally the `sorted(..., reverse=True)` stable sort of
CPython. -/
def insRate (x : PeerStats) : List PeerStats → List PeerStats
  | [] => [x]
  | y :: ys => if x.download_rate < y.download_rate then y :: insRate x ys else x :: y :: ys

def sortByRateDesc : List PeerStats → List PeerStats
  | [] => []
  | x :: xs => insRate x (sortByRateDesc xs)

/-- The candidate list `[p for p in self.peers.values() if
p.is_interested_in_us and not p.is_choking_us]`. -/
def interested_peers (m : PeerManager) : List PeerStats :=
  m.peers.filter (fun p => p.is_interested_in_us && !p.is_choking_us)

/-- Embedding of `PeerManager.recalculate_choking`. `now` is
`time.time()`; `pick` resolves `random.choice` (any index; taken mod the
candidate count). Returns the unchoked list and the updated manager. -/
def recalculate_choking (m : PeerManager) (now : Rat) (pick : Nat) :
    List PeerStats × PeerManager :=
  let interested := interested_peers m
  if interested.isEmpty then ([], m)
  else
    let sorted_peers := sortByRateDesc interested
    let unchoked0 := sorted_peers.take (m.max_unchoked_peers - 1)
    let step :=
      if m.optimistic_unchoke_interval < now - m.last_optimistic_unchoke then
        let other_peers := interested.filter (fun p => !(unchoked0.contains p))
        if other_peers.isEmpty then (unchoked0, m.last_optimistic_unchoke)
        else (unchoked0 ++ [other_peers.getD (pick % other_peers.length) default], now)
      else
        if m.max_unchoked_peers ≤ sorted_peers.length then
          (unchoked0 ++ [sorted_peers.getD (m.max_unchoked_peers - 1) default],
            m.last_optimistic_unchoke)
        else (unchoked0, m.last_optimistic_unchoke)
    let ids := step.1.map (fun p => p.pid)
    (step.1,
      { m with
        peers := m.peers.map (fun p => { p with is_choked_by_us := !(ids.contains p.pid) }),
        last_optimistic_unchoke := step.2 })

/-- The ordering the spec demands of the candidate ranking: strictly
higher download rate first; equal rates broken by older connection. -/
def rankedBefore (a b : PeerStats) : Prop :=
  b.download_rate < a.download_rate ∨
    (a.download_rate = b.download_rate ∧ a.connection_time ≤ b.connection_time)

/-- C10: updating download (or upload) statistics for an endpoint that
was never added raises no error and changes nothing; for a known
endpoint (registry keys are distinct), exactly that peer's statistics and
the matching manager total change, and every other peer object is left
in the registry untouched. -/
theorem C10_update_stats_frame (m : PeerManager) (pid n : Nat) (now : Rat) :
    ((∀ p ∈ m.peers, p.pid ≠ pid) →
      update_download m pid n now = m ∧ update_upload m pid n now = m) ∧
    (∀ p0 ∈ m.peers, p0.pid = pid →
      ((update_download m pid n now).peers.length = m.peers.length ∧
       update_downloaded p0 n now ∈ (update_download m pid n now).peers ∧
       (∀ q ∈ m.peers, q.pid ≠ pid → q ∈ (update_download m pid n now).peers) ∧
       (update_download m pid n now).total_downloaded = m.total_downloaded + n ∧
       (update_download m pid n now).total_uploaded = m.total_uploaded) ∧
      ((update_upload m pid n now).peers.length = m.peers.length ∧
       update_uploaded p0 n now ∈ (update_upload m pid n now).peers ∧
       (∀ q ∈ m.peers, q.pid ≠ pid → q ∈ (update_upload m pid n now).peers) ∧
       (update_upload m pid n now).total_uploaded = m.total_uploaded + n ∧
       (update_upload m pid n now).total_downloaded = m.total_downloaded)) := by
  constructor
  · intro h
    have hnone : m.peers.find? (fun p => p.pid == pid) = none := by
      rw [List.find?_eq_none]
      intro x hx
      simpa using h x hx
    constructor
    · rw [update_download, get_peer, hnone]
    · rw [update_upload, get_peer, hnone]
  · intro p0 hp0 hpid
    obtain ⟨q0, hq0⟩ : ∃ q0, m.peers.find? (fun p => p.pid == pid) = some q0 := by
      rw [← Option.isSome_iff_exists, List.find?_isSome]
      exact ⟨p0, hp0, by simp [hpid]⟩
    constructor
    · rw [update_download, get_peer, hq0]
      refine ⟨by simp, ?_, ?_, rfl, rfl⟩
      · exact List.mem_map.mpr ⟨p0, hp0, by rw [if_pos hpid]⟩
      · intro q hq hqne
        exact List.mem_map.mpr ⟨q, hq, by rw [if_neg hqne]⟩
    · rw [update_upload, get_peer, hq0]
      refine ⟨by simp, ?_, ?_, rfl, rfl⟩
      · exact List.mem_map.mpr ⟨p0, hp0, by rw [if_pos hpid]⟩
      · intro q hq hqne
        exact List.mem_map.mpr ⟨q, hq, by rw [if_neg hqne]⟩

/-- Witness for C10: a two-peer registry, one update to a known endpoint
and one to an unknown endpoint. -/
theorem C10_update_stats_frame_witness :
    (∀ p ∈ (PeerManager.mk [PeerStats.init 1 0, PeerStats.init 2 0] 4 30 0 0 0).peers,
      p.pid ≠ 9) ∧
    update_download (PeerManager.mk [PeerStats.init 1 0, PeerStats.init 2 0] 4 30 0 0 0)
      9 100 5 = PeerManager.mk [PeerStats.init 1 0, PeerStats.init 2 0] 4 30 0 0 0 ∧
    PeerStats.init 1 0 ∈ (PeerManager.mk [PeerStats.init 1 0, PeerStats.init 2 0]
      4 30 0 0 0).peers ∧
    (PeerStats.init 1 0).pid = 1 ∧
    (update_download (PeerManager.mk [PeerStats.init 1 0, PeerStats.init 2 0] 4 30 0 0 0)
      1 100 5).total_downloaded = 100 := by
  refine ⟨by decide, ?_, by decide, by decide, ?_⟩
  · exact ((C10_update_stats_frame
      (PeerManager.mk [PeerStats.init 1 0, PeerStats.init 2 0] 4 30 0 0 0)
      9 100 5).1 (by decide)).1
  · exact (((C10_update_stats_frame
      (PeerManager.mk [PeerStats.init 1 0, PeerStats.init 2 0] 4 30 0 0 0)
      1 100 5).2 (PeerStats.init 1 0) (by decide) (by decide)).1.2.2.2.1)

/-! ### C1: choking re-evaluation -/

theorem insRate_perm (x : PeerStats) (l : List PeerStats) :
    (insRate x l).Perm (x :: l) := by
  induction l with
  | nil => exact List.Perm.refl _
  | cons y ys ih =>
    rw [insRate]
    split
    · exact (ih.cons y).trans (List.Perm.swap x y ys)
    · exact List.Perm.refl _

theorem sortByRateDesc_perm (l : List PeerStats) : (sortByRateDesc l).Perm l := by
  induction l with
  | nil => exact List.Perm.refl _
  | cons x xs ih => exact (insRate_perm x _).trans (ih.cons x)

theorem insRate_pairwise (x : PeerStats) (l : List PeerStats)
    (hl : l.Pairwise rankedBefore)
    (hc : ∀ y ∈ l, x.connection_time ≤ y.connection_time) :
    (insRate x l).Pairwise rankedBefore := by
  induction l with
  | nil => simp [insRate]
  | cons y ys ih =>
    rw [insRate]
    rw [List.pairwise_cons] at hl
    split
    · rename_i h
      rw [List.pairwise_cons]
      constructor
      · intro z hz
        rcases List.mem_cons.mp ((insRate_perm x ys).mem_iff.mp hz) with hz' | hz'
        · exact hz' ▸ Or.inl h
        · exact hl.1 z hz'
      · exact ih hl.2 (fun y hy => hc y (List.mem_cons_of_mem _ hy))
    · rename_i h
      rw [List.pairwise_cons]
      refine ⟨?_, List.pairwise_cons.mpr hl⟩
      intro z hz
      rcases List.mem_cons.mp hz with rfl | hz'
      · rcases lt_or_eq_of_le (le_of_not_lt h) with h1 | h1
        · exact Or.inl h1
        · exact Or.inr ⟨h1.symm, hc z (List.mem_cons_self _ _)⟩
      · rcases hl.1 z hz' with h2 | h2
        · exact Or.inl (lt_of_lt_of_le h2 (le_of_not_lt h))
        · rcases lt_or_eq_of_le (h2.1 ▸ le_of_not_lt h) with h3 | h3
          · exact Or.inl h3
          · exact Or.inr ⟨h3.symm, hc z (List.mem_cons_of_mem _ hz')⟩

theorem sortByRateDesc_pairwise (l : List PeerStats)
    (ht : l.Pairwise (fun a b => a.connection_time ≤ b.connection_time)) :
    (sortByRateDesc l).Pairwise rankedBefore := by
  induction l with
  | nil => exact List.Pairwise.nil
  | cons x xs ih =>
    rw [sortByRateDesc]
    rw [List.pairwise_cons] at ht
    exact insRate_pairwise x _ (ih ht.2)
      (fun y hy => ht.1 y ((sortByRateDesc_perm xs).mem_iff.mp hy))

theorem getD_mem_of_ne_nil (l : List PeerStats) (k : Nat) (h : l ≠ []) :
    l.getD (k % l.length) default ∈ l := by
  have hlt : k % l.length < l.length := Nat.mod_lt _ (List.length_pos.mpr h)
  rw [List.getD_eq_getElem _ default hlt]
  exact List.getElem_mem hlt

theorem not_mem_of_contains_eq_false {l : List PeerStats} {x : PeerStats}
    (h : l.contains x = false) : x ∉ l := by
  intro hmem
  have h' : l.elem x = false := h
  rw [List.elem_eq_true_of_mem hmem] at h'
  exact Bool.noConfusion h'


/-- C1 (amended): with no interested peer, `recalculate_choking` returns
`[]` and changes nothing. Otherwise the candidates are exactly the peers
with `is_interested_in_us` and not `is_choking_us`; they are sorted by
download rate descending with ties broken by older connection (given the
registry lists peers in connection order); the result begins with the
top K-1 of that order and the fill behaviour is fully determined: when
the optimistic timer has elapsed, a candidate outside the top K-1 IS
appended whenever one exists (and nothing otherwise); when it has not,
the K-th sorted peer IS appended whenever there are at least K
candidates (and nothing otherwise); and afterwards every peer's
`is_choked_by_us` flag is exactly membership outside the selected ids. -/
theorem C1_choking_selection (m : PeerManager) (now : Rat) (pick : Nat)
    (hK : 1 ≤ m.max_unchoked_peers)
    (ht : m.peers.Pairwise (fun a b => a.connection_time ≤ b.connection_time)) :
    (interested_peers m = [] → recalculate_choking m now pick = ([], m)) ∧
    (interested_peers m ≠ [] →
      (sortByRateDesc (interested_peers m)).Perm (interested_peers m) ∧
      (sortByRateDesc (interested_peers m)).Pairwise rankedBefore ∧
      (∀ p ∈ (recalculate_choking m now pick).1,
        p.is_interested_in_us = true ∧ p.is_choking_us = false ∧ p ∈ m.peers) ∧
      (recalculate_choking m now pick).1.take (m.max_unchoked_peers - 1) =
        (sortByRateDesc (interested_peers m)).take (m.max_unchoked_peers - 1) ∧
      (recalculate_choking m now pick).1.length ≤ m.max_unchoked_peers ∧
      (m.optimistic_unchoke_interval < now - m.last_optimistic_unchoke →
        ((interested_peers m).filter (fun p =>
            !(((sortByRateDesc (interested_peers m)).take
              (m.max_unchoked_peers - 1)).contains p)) = [] →
          (recalculate_choking m now pick).1 =
            (sortByRateDesc (interested_peers m)).take (m.max_unchoked_peers - 1)) ∧
        ((interested_peers m).filter (fun p =>
            !(((sortByRateDesc (interested_peers m)).take
              (m.max_unchoked_peers - 1)).contains p)) ≠ [] →
          ∃ c, (recalculate_choking m now pick).1 =
              (sortByRateDesc (interested_peers m)).take
                (m.max_unchoked_peers - 1) ++ [c] ∧
            c ∈ interested_peers m ∧
            c ∉ (sortByRateDesc (interested_peers m)).take
              (m.max_unchoked_peers - 1))) ∧
      (¬ m.optimistic_unchoke_interval < now - m.last_optimistic_unchoke →
        (m.max_unchoked_peers ≤ (sortByRateDesc (interested_peers m)).length →
          (recalculate_choking m now pick).1 =
            (sortByRateDesc (interested_peers m)).take
              (m.max_unchoked_peers - 1) ++
              [(sortByRateDesc (interested_peers m)).getD
                (m.max_unchoked_peers - 1) default]) ∧
        ((sortByRateDesc (interested_peers m)).length < m.max_unchoked_peers →
          (recalculate_choking m now pick).1 =
            (sortByRateDesc (interested_peers m)).take
              (m.max_unchoked_peers - 1))) ∧
      (recalculate_choking m now pick).2.peers = m.peers.map (fun p =>
        { p with is_choked_by_us :=
            !(((recalculate_choking m now pick).1.map (fun q => q.pid)).contains p.pid) }) ∧
      (recalculate_choking m now pick).2.total_downloaded = m.total_downloaded ∧
      (recalculate_choking m now pick).2.total_uploaded = m.total_uploaded ∧
      (recalculate_choking m now pick).2.max_unchoked_peers = m.max_unchoked_peers) := by
  constructor
  · intro hIe
    simp only [recalculate_choking]
    rw [if_pos (by rw [List.isEmpty_iff]; exact hIe)]
  · intro hne
    have hni : ¬((interested_peers m).isEmpty = true) := by
      rw [List.isEmpty_iff]; exact hne
    have hperm : (sortByRateDesc (interested_peers m)).Perm (interested_peers m) :=
      sortByRateDesc_perm _
    have hsorted : (sortByRateDesc (interested_peers m)).Pairwise rankedBefore :=
      sortByRateDesc_pairwise _ (ht.sublist (List.filter_sublist _))
    have hmain : ∃ u t, recalculate_choking m now pick =
        (u, { m with
          peers := m.peers.map (fun p => { p with is_choked_by_us :=
            !((u.map (fun q => q.pid)).contains p.pid) }),
          last_optimistic_unchoke := t }) ∧
        (u = (sortByRateDesc (interested_peers m)).take (m.max_unchoked_peers - 1) ∨
          ∃ c, u =
              (sortByRateDesc (interested_peers m)).take (m.max_unchoked_peers - 1) ++ [c] ∧
            m.max_unchoked_peers - 1 ≤ (sortByRateDesc (interested_peers m)).length ∧
            ((m.optimistic_unchoke_interval < now - m.last_optimistic_unchoke ∧
              c ∈ interested_peers m ∧
              c ∉ (sortByRateDesc (interested_peers m)).take (m.max_unchoked_peers - 1)) ∨
             (¬ m.optimistic_unchoke_interval < now - m.last_optimistic_unchoke ∧
              m.max_unchoked_peers ≤ (sortByRateDesc (interested_peers m)).length ∧
              c = (sortByRateDesc (interested_peers m)).getD
                (m.max_unchoked_peers - 1) default))) ∧
        (m.optimistic_unchoke_interval < now - m.last_optimistic_unchoke →
          ((interested_peers m).filter (fun p =>
              !(((sortByRateDesc (interested_peers m)).take
                (m.max_unchoked_peers - 1)).contains p)) = [] →
            u = (sortByRateDesc (interested_peers m)).take (m.max_unchoked_peers - 1)) ∧
          ((interested_peers m).filter (fun p =>
              !(((sortByRateDesc (interested_peers m)).take
                (m.max_unchoked_peers - 1)).contains p)) ≠ [] →
            ∃ c, u = (sortByRateDesc (interested_peers m)).take
                (m.max_unchoked_peers - 1) ++ [c] ∧
              c ∈ interested_peers m ∧
              c ∉ (sortByRateDesc (interested_peers m)).take
                (m.max_unchoked_peers - 1))) ∧
        (¬ m.optimistic_unchoke_interval < now - m.last_optimistic_unchoke →
          (m.max_unchoked_peers ≤ (sortByRateDesc (interested_peers m)).length →
            u = (sortByRateDesc (interested_peers m)).take
              (m.max_unchoked_peers - 1) ++
              [(sortByRateDesc (interested_peers m)).getD
                (m.max_unchoked_peers - 1) default]) ∧
          ((sortByRateDesc (interested_peers m)).length < m.max_unchoked_peers →
            u = (sortByRateDesc (interested_peers m)).take
              (m.max_unchoked_peers - 1))) := by
      by_cases hT : m.optimistic_unchoke_interval < now - m.last_optimistic_unchoke
      · by_cases hO : ((interested_peers m).filter (fun p =>
            !(((sortByRateDesc (interested_peers m)).take
              (m.max_unchoked_peers - 1)).contains p))).isEmpty = true
        · have hoe : (interested_peers m).filter (fun p =>
              !(((sortByRateDesc (interested_peers m)).take
                (m.max_unchoked_peers - 1)).contains p)) = [] :=
            List.isEmpty_iff.mp hO
          refine ⟨_, m.last_optimistic_unchoke, ?_, Or.inl rfl,
            fun _ => ⟨fun _ => rfl, fun hne2 => absurd hoe hne2⟩,
            fun hTc => absurd hT hTc⟩
          simp only [recalculate_choking]
          rw [if_neg hni, if_pos hT, if_pos hO]
        · have hOne : (interested_peers m).filter (fun p =>
              !(((sortByRateDesc (interested_peers m)).take
                (m.max_unchoked_peers - 1)).contains p)) ≠ [] := by
            intro h
            exact hO (by rw [h]; rfl)
          have hcmem := getD_mem_of_ne_nil _ pick hOne
          have hcI := (List.mem_filter.mp hcmem).1
          have hcnot := not_mem_of_contains_eq_false
            (by simpa only [Bool.not_eq_true'] using (List.mem_filter.mp hcmem).2)
          have hlen : m.max_unchoked_peers - 1 ≤
              (sortByRateDesc (interested_peers m)).length := by
            by_contra hcon
            push_neg at hcon
            have htake : (sortByRateDesc (interested_peers m)).take
                (m.max_unchoked_peers - 1) = sortByRateDesc (interested_peers m) :=
              List.take_of_length_le (le_of_lt hcon)
            obtain ⟨c, hcIa, hcna⟩ : ∃ c, c ∈ interested_peers m ∧
                c ∉ (sortByRateDesc (interested_peers m)).take
                  (m.max_unchoked_peers - 1) := ⟨_, hcI, hcnot⟩
            rw [htake] at hcna
            exact hcna (hperm.mem_iff.mpr hcIa)
          refine ⟨_, now, ?_, Or.inr ⟨_, rfl, hlen, Or.inl ⟨hT, hcI, hcnot⟩⟩,
            fun _ => ⟨fun h0 => absurd h0 hOne, fun _ => ⟨_, rfl, hcI, hcnot⟩⟩,
            fun hTc => absurd hT hTc⟩
          simp only [recalculate_choking]
          rw [if_neg hni, if_pos hT, if_neg hO]
      · by_cases hKl : m.max_unchoked_peers ≤ (sortByRateDesc (interested_peers m)).length
        · refine ⟨_, m.last_optimistic_unchoke, ?_,
            Or.inr ⟨_, rfl, by omega, Or.inr ⟨hT, hKl, rfl⟩⟩,
            fun hTc => absurd hTc hT,
            fun _ => ⟨fun _ => rfl, fun hlt => absurd hKl (by omega)⟩⟩
          simp only [recalculate_choking]
          rw [if_neg hni, if_neg hT, if_pos hKl]
        · refine ⟨_, m.last_optimistic_unchoke, ?_, Or.inl rfl,
            fun hTc => absurd hTc hT,
            fun _ => ⟨fun hge => absurd hge hKl, fun _ => rfl⟩⟩
          simp only [recalculate_choking]
          rw [if_neg hni, if_neg hT, if_neg hKl]
    obtain ⟨u, t, hr, hu, hbT, hbE⟩ := hmain
    have hmemI : ∀ p ∈ u, p ∈ interested_peers m := by
      intro p hp
      rcases hu with h | ⟨c, hc, hlen, hbr⟩
      · exact hperm.mem_iff.mp (List.take_subset _ _ (h ▸ hp))
      · rcases List.mem_append.mp (hc ▸ hp) with h' | h'
        · exact hperm.mem_iff.mp (List.take_subset _ _ h')
        · have : p = c := List.mem_singleton.mp h'
          subst this
          rcases hbr with ⟨_, hcI, _⟩ | ⟨_, hKl, hcg⟩
          · exact hcI
          · have hlt' : m.max_unchoked_peers - 1 <
                (sortByRateDesc (interested_peers m)).length := by omega
            rw [hcg, List.getD_eq_getElem _ default hlt']
            exact hperm.mem_iff.mp (List.getElem_mem hlt')
    refine ⟨hperm, hsorted, ?_, ?_, ?_, ?_, ?_, ?_, ?_, ?_, ?_⟩
    · intro p hp
      have := List.mem_filter.mp (hmemI p (by rw [hr] at hp; exact hp))
      refine ⟨?_, ?_, this.1⟩
      · have h2 := this.2
        rw [Bool.and_eq_true] at h2
        exact h2.1
      · have h2 := this.2
        rw [Bool.and_eq_true] at h2
        rw [Bool.not_eq_true'] at h2
        exact h2.2
    · rw [hr]
      rcases hu with h | ⟨c, hc, hlen, _⟩
      · show u.take _ = _
        rw [h, List.take_take, min_self]
      · show u.take _ = _
        rw [hc, List.take_append_of_le_length (by rw [List.length_take]; omega),
          List.take_take, min_self]
    · rw [hr]
      rcases hu with h | ⟨c, hc, hlen, _⟩
      · show u.length ≤ _
        rw [h, List.length_take]
        omega
      · show u.length ≤ _
        rw [hc, List.length_append, List.length_take]
        simp only [List.length_singleton]
        omega
    · rw [hr]
      exact hbT
    · rw [hr]
      exact hbE
    · rw [hr]
    · rw [hr]
    · rw [hr]
    · rw [hr]

/-- Counterexample to C1 as stated: when no peer is interested the
method returns early (peer_manager.py line 149-151) without touching any
choke flag, so a previously unchoked, now-uninterested peer keeps
`is_choked_by_us = False` although it is not selected. -/
theorem C1_counterexample :
    ¬ (∀ q ∈ (recalculate_choking (PeerManager.mk
        [⟨7, 0, 0, 0, 0, 0, 0, false, true, false, false, 0⟩] 4 30 0 0 0) 100 0).2.peers,
      q.pid ∉ ((recalculate_choking (PeerManager.mk
        [⟨7, 0, 0, 0, 0, 0, 0, false, true, false, false, 0⟩] 4 30 0 0 0) 100 0).1.map
          (fun p => p.pid)) →
      q.is_choked_by_us = true) := by decide

/-- Witness for C1 at a three-candidate registry with
`max_unchoked_peers = 2` and the optimistic timer not elapsed: the
K-th sorted peer is appended as the fill peer. -/
theorem C1_choking_selection_witness :
    1 ≤ (PeerManager.mk [⟨1, 0, 0, 0, 0, 5, 0, true, false, true, false, 0⟩,
        ⟨2, 0, 0, 0, 0, 3, 0, true, false, true, false, 1⟩,
        ⟨3, 0, 0, 0, 0, 1, 0, true, false, true, false, 2⟩]
        2 1 0 0 0).max_unchoked_peers ∧
    (PeerManager.mk [⟨1, 0, 0, 0, 0, 5, 0, true, false, true, false, 0⟩,
        ⟨2, 0, 0, 0, 0, 3, 0, true, false, true, false, 1⟩,
        ⟨3, 0, 0, 0, 0, 1, 0, true, false, true, false, 2⟩] 2 1 0 0 0).peers.Pairwise
      (fun a b => a.connection_time ≤ b.connection_time) ∧
    interested_peers (PeerManager.mk [⟨1, 0, 0, 0, 0, 5, 0, true, false, true, false, 0⟩,
        ⟨2, 0, 0, 0, 0, 3, 0, true, false, true, false, 1⟩,
        ⟨3, 0, 0, 0, 0, 1, 0, true, false, true, false, 2⟩] 2 1 0 0 0) ≠ [] ∧
    ¬ (PeerManager.mk [⟨1, 0, 0, 0, 0, 5, 0, true, false, true, false, 0⟩,
        ⟨2, 0, 0, 0, 0, 3, 0, true, false, true, false, 1⟩,
        ⟨3, 0, 0, 0, 0, 1, 0, true, false, true, false, 2⟩]
        2 1 0 0 0).optimistic_unchoke_interval <
      (0 : Rat) - (PeerManager.mk [⟨1, 0, 0, 0, 0, 5, 0, true, false, true, false, 0⟩,
        ⟨2, 0, 0, 0, 0, 3, 0, true, false, true, false, 1⟩,
        ⟨3, 0, 0, 0, 0, 1, 0, true, false, true, false, 2⟩]
        2 1 0 0 0).last_optimistic_unchoke ∧
    (PeerManager.mk [⟨1, 0, 0, 0, 0, 5, 0, true, false, true, false, 0⟩,
        ⟨2, 0, 0, 0, 0, 3, 0, true, false, true, false, 1⟩,
        ⟨3, 0, 0, 0, 0, 1, 0, true, false, true, false, 2⟩]
        2 1 0 0 0).max_unchoked_peers ≤
      (sortByRateDesc (interested_peers (PeerManager.mk
        [⟨1, 0, 0, 0, 0, 5, 0, true, false, true, false, 0⟩,
        ⟨2, 0, 0, 0, 0, 3, 0, true, false, true, false, 1⟩,
        ⟨3, 0, 0, 0, 0, 1, 0, true, false, true, false, 2⟩] 2 1 0 0 0))).length ∧
    (recalculate_choking (PeerManager.mk
        [⟨1, 0, 0, 0, 0, 5, 0, true, false, true, false, 0⟩,
        ⟨2, 0, 0, 0, 0, 3, 0, true, false, true, false, 1⟩,
        ⟨3, 0, 0, 0, 0, 1, 0, true, false, true, false, 2⟩] 2 1 0 0 0) 0 0).1 =
      (sortByRateDesc (interested_peers (PeerManager.mk
        [⟨1, 0, 0, 0, 0, 5, 0, true, false, true, false, 0⟩,
        ⟨2, 0, 0, 0, 0, 3, 0, true, false, true, false, 1⟩,
        ⟨3, 0, 0, 0, 0, 1, 0, true, false, true, false, 2⟩] 2 1 0 0 0))).take 1 ++
      [(sortByRateDesc (interested_peers (PeerManager.mk
        [⟨1, 0, 0, 0, 0, 5, 0, true, false, true, false, 0⟩,
        ⟨2, 0, 0, 0, 0, 3, 0, true, false, true, false, 1⟩,
        ⟨3, 0, 0, 0, 0, 1, 0, true, false, true, false, 2⟩] 2 1 0 0 0))).getD 1 default] := by
  refine ⟨by decide, by decide, by decide, by simp, by decide, ?_⟩
  exact (((C1_choking_selection (PeerManager.mk
      [⟨1, 0, 0, 0, 0, 5, 0, true, false, true, false, 0⟩,
      ⟨2, 0, 0, 0, 0, 3, 0, true, false, true, false, 1⟩,
      ⟨3, 0, 0, 0, 0, 1, 0, true, false, true, false, 2⟩] 2 1 0 0 0) 0 0
    (by decide) (by decide)).2 (by decide)).2.2.2.2.2.2.1 (by simp)).1 (by decide)

/-! ### C2: piece digest verification (src/download_optimized.py)

`download_and_verify_piece` is modelled over an abstract downloader
state: `pieces_hashes` is the concatenated 20-byte digests from the
metainfo, `pieces_data` the insertion-ordered dict of committed pieces,
`pieces_downloaded` the set of committed indices. The loop over candidate
peers is driven by the positional list `attempts` of session outcomes
(`none` = exception or the falsy `piece_data`, `some d` = returned
bytes); Python's `if piece_data:` truthiness is `d ≠ []`. `save_file`
concatenates the committed pieces in sorted index order. -/

structure DState where
  pieces_hashes : List Nat
  pieces_data : List (Nat × List Nat)
  pieces_downloaded : List Nat
deriving DecidableEq, Repr

def expected_hash (s : DState) (idx : Nat) : List Nat :=
  (s.pieces_hashes.drop (idx * 20)).take 20

def dinsertN : List (Nat × List Nat) → Nat → List Nat → List (Nat × List Nat)
  | [], k, v => [(k, v)]
  | (k', v') :: rest, k, v =>
    if k' = k then (k, v) :: rest else (k', v') :: dinsertN rest k v

def lookupN : List (Nat × List Nat) → Nat → Option (List Nat)
  | [], _ => none
  | (k', v') :: rest, k => if k' = k then some v' else lookupN rest k

def addIdx (l : List Nat) (x : Nat) : List Nat :=
  if l.contains x then l else l ++ [x]

def download_and_verify_piece (s : DState) (idx : Nat) :
    List (Option (List Nat)) → DState × Bool
  | [] => (s, false)
  | none :: rest => download_and_verify_piece s idx rest
  | some d :: rest =>
    if d ≠ [] ∧ sha1 d = expected_hash s idx then
      ({ s with
          pieces_data := dinsertN s.pieces_data idx d,
          pieces_downloaded := addIdx s.pieces_downloaded idx }, true)
    else download_and_verify_piece s idx rest

def insNat (x : Nat) : List Nat → List Nat
  | [] => [x]
  | y :: ys => if x ≤ y then x :: y :: ys else y :: insNat x ys

def sortNat : List Nat → List Nat
  | [] => []
  | x :: xs => insNat x (sortNat xs)

def save_file (s : DState) : List Nat :=
  (sortNat (s.pieces_data.map Prod.fst)).flatMap
    (fun k => (lookupN s.pieces_data k).getD [])

def verified_inv (s : DState) : Prop :=
  ∀ kd ∈ s.pieces_data, kd.2 ≠ [] ∧ sha1 kd.2 = expected_hash s kd.1

theorem mem_dinsertN (l : List (Nat × List Nat)) (k : Nat) (v : List Nat) :
    ∀ kd ∈ dinsertN l k v, kd = (k, v) ∨ kd ∈ l := by
  induction l with
  | nil =>
    intro kd hkd
    rw [dinsertN] at hkd
    exact Or.inl (List.mem_singleton.mp hkd)
  | cons hd tl ih =>
    intro kd hkd
    rw [dinsertN] at hkd
    split at hkd
    · rcases List.mem_cons.mp hkd with h | h
      · exact Or.inl h
      · exact Or.inr (List.mem_cons_of_mem _ h)
    · rcases List.mem_cons.mp hkd with h | h
      · exact Or.inr (h ▸ List.mem_cons_self _ _)
      · rcases ih kd h with h' | h'
        · exact Or.inl h'
        · exact Or.inr (List.mem_cons_of_mem _ h')

theorem lookupN_mem (l : List (Nat × List Nat)) (k : Nat) :
    k ∈ l.map Prod.fst → ∃ d, lookupN l k = some d ∧ (k, d) ∈ l := by
  induction l with
  | nil => intro h; exact absurd h (List.not_mem_nil k)
  | cons hd tl ih =>
    intro h
    by_cases hk : hd.1 = k
    · refine ⟨hd.2, by rw [lookupN, if_pos hk], ?_⟩
      have : (k, hd.2) = hd := by rw [← hk]
      exact this ▸ List.mem_cons_self _ _
    · rw [List.map_cons, List.mem_cons] at h
      rcases h with h' | h'
      · exact absurd h'.symm hk
      · obtain ⟨d, hl, hm⟩ := ih h'
        exact ⟨d, by rw [lookupN, if_neg hk]; exact hl, List.mem_cons_of_mem _ hm⟩

theorem mem_insNat (x a : Nat) (l : List Nat) : x ∈ insNat a l ↔ x = a ∨ x ∈ l := by
  induction l with
  | nil => simp [insNat]
  | cons y ys ih =>
    rw [insNat]
    split
    · rw [List.mem_cons]
    · rw [List.mem_cons, ih, List.mem_cons]
      tauto

theorem sortNat_mem (l : List Nat) (x : Nat) : x ∈ sortNat l ↔ x ∈ l := by
  induction l with
  | nil => exact Iff.rfl
  | cons y ys ih =>
    rw [sortNat, mem_insNat, ih, List.mem_cons]

theorem lookupN_dinsertN (l : List (Nat × List Nat)) (k : Nat) (v : List Nat) :
    lookupN (dinsertN l k v) k = some v := by
  induction l with
  | nil => rw [dinsertN, lookupN, if_pos rfl]
  | cons hd tl ih =>
    rw [dinsertN]
    split
    · rw [lookupN, if_pos rfl]
    · rename_i h
      rw [lookupN, if_neg h]
      exact ih

theorem saved_verified {t : DState} (hinv : verified_inv t) :
    ∀ k ∈ sortNat (t.pieces_data.map Prod.fst),
      ∃ d, lookupN t.pieces_data k = some d ∧ d ≠ [] ∧
        sha1 d = expected_hash t k := by
  intro k hk
  obtain ⟨d, hl, hm⟩ := lookupN_mem _ k ((sortNat_mem _ k).mp hk)
  have h := hinv (k, d) hm
  exact ⟨d, hl, h.1, h.2⟩

theorem dvp_hashes (s : DState) (idx : Nat) (att : List (Option (List Nat))) :
    (download_and_verify_piece s idx att).1.pieces_hashes = s.pieces_hashes := by
  induction att with
  | nil => rfl
  | cons a rest ih =>
    cases a with
    | none => simp only [download_and_verify_piece]; exact ih
    | some d =>
      simp only [download_and_verify_piece]
      split
      · rfl
      · exact ih

theorem dvp_inv (s : DState) (idx : Nat) (att : List (Option (List Nat)))
    (hinv : verified_inv s) :
    verified_inv (download_and_verify_piece s idx att).1 := by
  induction att with
  | nil => exact hinv
  | cons a rest ih =>
    cases a with
    | none => simp only [download_and_verify_piece]; exact ih
    | some d =>
      simp only [download_and_verify_piece]
      split
      · rename_i hg
        intro kd hkd
        rcases mem_dinsertN _ _ _ kd hkd with h | h
        · rw [h]
          exact hg
        · exact hinv kd h
      · exact ih

theorem dvp_true (s : DState) (idx : Nat) (att : List (Option (List Nat))) :
    (download_and_verify_piece s idx att).2 = true →
      ∃ d, lookupN (download_and_verify_piece s idx att).1.pieces_data idx = some d ∧
        d ≠ [] ∧ sha1 d = expected_hash s idx := by
  induction att with
  | nil =>
    intro h
    exact absurd h (by simp [download_and_verify_piece])
  | cons a rest ih =>
    cases a with
    | none => simp only [download_and_verify_piece]; exact ih
    | some d =>
      simp only [download_and_verify_piece]
      split
      · rename_i hg
        intro _
        exact ⟨d, lookupN_dinsertN _ _ _, hg.1, hg.2⟩
      · exact ih

/-- C2: a state whose committed pieces all pass SHA-1 verification
against their expected digest stays that way through any run of
`download_and_verify_piece`: the digests are untouched, the invariant is
preserved, a `True` result means the target piece was committed with a
verified nonempty body, and every chunk `save_file` writes is a
committed, verified piece. -/
theorem C2_digest_verification (s : DState) (idx : Nat)
    (attempts : List (Option (List Nat))) (hinv : verified_inv s) :
    (download_and_verify_piece s idx attempts).1.pieces_hashes = s.pieces_hashes ∧
    verified_inv (download_and_verify_piece s idx attempts).1 ∧
    ((download_and_verify_piece s idx attempts).2 = true →
      ∃ d, lookupN (download_and_verify_piece s idx attempts).1.pieces_data idx = some d ∧
        d ≠ [] ∧ sha1 d = expected_hash s idx) ∧
    (∀ k ∈ sortNat ((download_and_verify_piece s idx attempts).1.pieces_data.map Prod.fst),
      ∃ d, lookupN (download_and_verify_piece s idx attempts).1.pieces_data k = some d ∧
        d ≠ [] ∧ sha1 d = expected_hash (download_and_verify_piece s idx attempts).1 k) ∧
    save_file (download_and_verify_piece s idx attempts).1 =
      (sortNat ((download_and_verify_piece s idx attempts).1.pieces_data.map
        Prod.fst)).flatMap
        (fun k =>
          (lookupN (download_and_verify_piece s idx attempts).1.pieces_data k).getD []) :=
  ⟨dvp_hashes s idx attempts,
   dvp_inv s idx attempts hinv,
   dvp_true s idx attempts,
   saved_verified (dvp_inv s idx attempts hinv),
   rfl⟩

/-- Witness for C2: the empty downloader state and one failed attempt. -/
theorem C2_digest_verification_witness :
    verified_inv (DState.mk (List.replicate 20 0) [] []) ∧
    (download_and_verify_piece (DState.mk (List.replicate 20 0) [] [])
        0 [none]).1.pieces_hashes =
      (DState.mk (List.replicate 20 0) [] []).pieces_hashes ∧
    verified_inv (download_and_verify_piece (DState.mk (List.replicate 20 0) [] [])
      0 [none]).1 :=
  ⟨by simp [verified_inv],
   (C2_digest_verification (DState.mk (List.replicate 20 0) [] []) 0 [none]
     (by simp [verified_inv])).1,
   (C2_digest_verification (DState.mk (List.replicate 20 0) [] []) 0 [none]
     (by simp [verified_inv])).2.1⟩

/-! ### C8: tracker walking (src/download_optimized.py get_peers_from_tracker)

Tracker URLs are opaque ids; a peer endpoint is an `(ip, port)` pair.
`resp` gives each tracker's announce outcome (`none` = exception or a
response without `b'peers'`, `some l` = the parsed compact peer list).
`collect_trackers` mirrors the flattening of `announce-list` (or the
single `announce`); `gather_peers` mirrors the accumulation loop that
visits every tracker; `dedupP` mirrors the keep-first `seen`-set
deduplication. -/

def collect_trackers (announce : Nat) (announce_list : Option (List (List Nat))) :
    List Nat :=
  match announce_list with
  | some tiers => tiers.flatMap id
  | none => [announce]

def gather_peers (trackers : List Nat) (resp : Nat → Option (List (Nat × Nat))) :
    List (Nat × Nat) :=
  match trackers with
  | [] => []
  | t :: rest => ((resp t).getD []) ++ gather_peers rest resp

def dedupP : List (Nat × Nat) → List (Nat × Nat) → List (Nat × Nat)
  | [], _ => []
  | p :: rest, seen =>
    if seen.contains p then dedupP rest seen else p :: dedupP rest (p :: seen)

def get_peers_from_tracker (announce : Nat) (announce_list : Option (List (List Nat)))
    (resp : Nat → Option (List (Nat × Nat))) : List (Nat × Nat) :=
  dedupP (gather_peers (collect_trackers announce announce_list) resp) []

theorem contains_iff_mem_pair (l : List (Nat × Nat)) (p : Nat × Nat) :
    l.contains p = true ↔ p ∈ l := by
  simp

theorem dedupP_sublist (l : List (Nat × Nat)) :
    ∀ seen, List.Sublist (dedupP l seen) l := by
  induction l with
  | nil => intro seen; exact List.Sublist.refl _
  | cons p rest ih =>
    intro seen
    rw [dedupP]
    split
    · exact (ih seen).cons p
    · exact (ih (p :: seen)).cons₂ p

theorem mem_dedupP (l : List (Nat × Nat)) :
    ∀ seen q, q ∈ dedupP l seen ↔ q ∈ l ∧ q ∉ seen := by
  induction l with
  | nil => intro seen q; simp [dedupP]
  | cons p rest ih =>
    intro seen q
    rw [dedupP]
    split
    · rename_i hc
      have hp : p ∈ seen := (contains_iff_mem_pair seen p).mp hc
      rw [ih seen q, List.mem_cons]
      constructor
      · exact fun h => ⟨Or.inr h.1, h.2⟩
      · rintro ⟨rfl | h1, h2⟩
        · exact absurd hp h2
        · exact ⟨h1, h2⟩
    · rename_i hc
      have hpn : p ∉ seen := fun hq => hc ((contains_iff_mem_pair seen p).mpr hq)
      constructor
      · intro hmem
        rcases List.mem_cons.mp hmem with rfl | hmem'
        · exact ⟨List.mem_cons_self _ _, hpn⟩
        · have h := (ih (p :: seen) q).mp hmem'
          exact ⟨List.mem_cons_of_mem _ h.1, fun hq => h.2 (List.mem_cons_of_mem _ hq)⟩
      · rintro ⟨h1, h2⟩
        rcases List.mem_cons.mp h1 with rfl | h1a
        · exact List.mem_cons_self _ _
        · by_cases hqp : q = p
          · exact List.mem_cons.mpr (Or.inl hqp)
          · refine List.mem_cons_of_mem _ ((ih (p :: seen) q).mpr ⟨h1a, ?_⟩)
            intro hq
            rcases List.mem_cons.mp hq with h | h
            · exact hqp h
            · exact h2 h

theorem dedupP_nodup (l : List (Nat × Nat)) : ∀ seen, (dedupP l seen).Nodup := by
  induction l with
  | nil => intro seen; exact List.nodup_nil
  | cons p rest ih =>
    intro seen
    rw [dedupP]
    split
    · exact ih seen
    · rw [List.nodup_cons]
      refine ⟨?_, ih (p :: seen)⟩
      intro hmem
      exact ((mem_dedupP rest (p :: seen) p).mp hmem).2 (List.mem_cons_self _ _)

theorem mem_gather_peers (trackers : List Nat) (resp : Nat → Option (List (Nat × Nat))) :
    ∀ t ∈ trackers, ∀ p ∈ (resp t).getD [], p ∈ gather_peers trackers resp := by
  induction trackers with
  | nil => intro t ht; exact absurd ht (List.not_mem_nil t)
  | cons t0 rest ih =>
    intro t ht p hp
    rw [gather_peers, List.mem_append]
    rcases List.mem_cons.mp ht with rfl | ht'
    · exact Or.inl hp
    · exact Or.inr (ih t ht' p hp)

/-- Counterexample to C8 as stated: with two single-URL tiers whose
trackers both answer, the admitted list also contains the second
tracker's peer — the loop (download_optimized.py lines 92-103) never
stops at the first successful announce. -/
theorem C8_counterexample :
    get_peers_from_tracker 0 (some [[1], [2]])
      (fun t => if t = 1 then some [(1, 1)] else some [(2, 2)]) ≠ [(1, 1)] ∧
    get_peers_from_tracker 0 (some [[1], [2]])
      (fun t => if t = 1 then some [(1, 1)] else some [(2, 2)]) = [(1, 1), (2, 2)] := by
  decide

/-- C8 (amended): tiers are flattened in order and URLs within a tier
kept in order; EVERY tracker is contacted and the admitted list is the
keep-first `(ip, port)` deduplication of all successful announces'
peers concatenated in that order — duplicates are dropped, the admitted
list has no duplicate endpoint, preserves the gathered order, and
contains every peer any successful tracker returned. -/
theorem C8_tracker_walk (announce : Nat) (tiers : List (List Nat))
    (resp : Nat → Option (List (Nat × Nat))) :
    collect_trackers announce (some tiers) = tiers.flatMap id ∧
    collect_trackers announce none = [announce] ∧
    get_peers_from_tracker announce (some tiers) resp =
      dedupP (gather_peers (tiers.flatMap id) resp) [] ∧
    (∀ p, p ∈ get_peers_from_tracker announce (some tiers) resp ↔
      p ∈ gather_peers (tiers.flatMap id) resp) ∧
    (get_peers_from_tracker announce (some tiers) resp).Nodup ∧
    List.Sublist (get_peers_from_tracker announce (some tiers) resp)
      (gather_peers (tiers.flatMap id) resp) ∧
    (∀ t ∈ tiers.flatMap id, ∀ p ∈ (resp t).getD [],
      p ∈ get_peers_from_tracker announce (some tiers) resp) := by
  refine ⟨rfl, rfl, rfl, ?_, dedupP_nodup _ _, dedupP_sublist _ _, ?_⟩
  · intro p
    rw [get_peers_from_tracker]
    rw [mem_dedupP]
    simp [collect_trackers]
  · intro t ht p hp
    rw [get_peers_from_tracker, mem_dedupP]
    exact ⟨mem_gather_peers _ resp t ht p hp, List.not_mem_nil p⟩

/-! ### C9: output paths (src/file_manager.py)

Paths are byte lists (47 = '/', 46 = '.'). `pjoin` is POSIX
`os.path.join` on two components: an absolute second argument replaces
the first, otherwise they are joined with a separator. `joinParts` is
`os.path.join(*path_parts)`; `parse_file_list` mirrors
`FileManager._parse_file_list` (paths joined under the root name,
running offsets); `write_pieces` returns the (path, bytes) writes the
method performs: pieces concatenated in sorted index order, sliced per
file, written to `os.path.join(base_output_dir, file['path'])`. -/

def pjoin (a b : List Nat) : List Nat :=
  if b.headD 0 = 47 then b
  else if a = [] then b
  else if a.getLast? = some 47 then a ++ b
  else a ++ 47 :: b

def joinParts : List (List Nat) → List Nat
  | [] => []
  | p :: ps => ps.foldl pjoin p

structure FileEntry where
  path : List Nat
  length : Nat
  offset : Nat
deriving DecidableEq, Repr

def parse_file_list_go (root_name : List Nat) (off : Nat) :
    List (List (List Nat) × Nat) → List FileEntry
  | [] => []
  | (parts, len) :: rest =>
    ⟨pjoin root_name (joinParts parts), len, off⟩ ::
      parse_file_list_go root_name (off + len) rest

def parse_file_list (root_name : List Nat)
    (files : List (List (List Nat) × Nat)) : List FileEntry :=
  parse_file_list_go root_name 0 files

def write_pieces (fm_files : List FileEntry) (base : List Nat)
    (pieces_data : List (Nat × List Nat)) : List (List Nat × List Nat) :=
  let all_data := (sortNat (pieces_data.map Prod.fst)).flatMap
    (fun k => (lookupN pieces_data k).getD [])
  fm_files.map (fun fe =>
    (pjoin base fe.path, (all_data.drop fe.offset).take fe.length))

theorem parse_go_paths (root : List Nat) (files : List (List (List Nat) × Nat)) :
    ∀ off, (parse_file_list_go root off files).map (fun fe => fe.path) =
      files.map (fun f => pjoin root (joinParts f.1)) := by
  induction files with
  | nil => intro off; rfl
  | cons f rest ih =>
    intro off
    match f with
    | (parts, len) =>
      rw [parse_file_list_go, List.map_cons, List.map_cons, ih (off + len)]

/-- Counterexample to C9: file_manager.py contains no sanitization and
no UnsafePath error. A metainfo entry whose single path component is the
absolute "/e" is written verbatim to "/e" (the join discards the
downloads root entirely), and a "../../f" entry is written under
"d/r/../../f", escaping the root — nothing is rejected. -/
theorem C9_counterexample :
    write_pieces (parse_file_list [114] [([[47, 101]], 1)]) [100] [(0, [9])] =
      [([47, 101], [9])] ∧
    (write_pieces (parse_file_list [114] [([[46, 46], [46, 46], [102]], 4)]) [100]
        [(0, [9, 9, 9, 9])]).map Prod.fst =
      [[100, 47, 114, 47, 46, 46, 47, 46, 46, 47, 102]] := by decide

/-- C9 (amended): no sanitization happens. For every metainfo file
list, `write_pieces` performs exactly one write per entry, at the
unfiltered path `join(base, join(root_name, join(*parts)))` — absolute
prefixes and ".." components included; an absolute component swallows
everything joined before it. -/
theorem C9_unsanitized_paths (root base : List Nat) (files : List (List (List Nat) × Nat))
    (pieces : List (Nat × List Nat)) :
    (write_pieces (parse_file_list root files) base pieces).map Prod.fst =
      files.map (fun f => pjoin base (pjoin root (joinParts f.1))) ∧
    (∀ a b : List Nat, b.headD 0 = 47 → pjoin a b = b) := by
  constructor
  · rw [write_pieces]
    rw [List.map_map]
    have h1 : (Prod.fst ∘ fun fe : FileEntry =>
        (pjoin base fe.path, (((sortNat (pieces.map Prod.fst)).flatMap
          (fun k => (lookupN pieces k).getD [])).drop fe.offset).take fe.length)) =
        (fun fe : FileEntry => pjoin base fe.path) := rfl
    rw [h1]
    have h2 : (fun fe : FileEntry => pjoin base fe.path) =
        ((fun p => pjoin base p) ∘ fun fe : FileEntry => fe.path) := rfl
    rw [h2, ← List.map_map, parse_file_list, parse_go_paths, List.map_map]
    rfl
  · intro a b hb
    rw [pjoin, if_pos hb]

/-- Witness for C9 at the absolute-path metainfo entry. -/
theorem C9_unsanitized_paths_witness :
    (write_pieces (parse_file_list [114] [([[47, 101]], 1)]) [100]
        [(0, [9])]).map Prod.fst =
      [([[47, 101]], 1)].map
        (fun f : List (List Nat) × Nat => pjoin [100] (pjoin [114] (joinParts f.1))) ∧
    pjoin [100] [47, 101] = [47, 101] :=
  ⟨(C9_unsanitized_paths [114] [100] [([[47, 101]], 1)] [(0, [9])]).1,
   (C9_unsanitized_paths [114] [100] [([[47, 101]], 1)] [(0, [9])]).2
     [100] [47, 101] (by decide)⟩

/-- Witness for C4: two key-reordered two-entry dictionaries hash equal. -/
theorem C4_canonical_encoder_info_hash_witness :
    wfB (.dict [([97], .int 1), ([98], .int 2)]) = true ∧
    wfB (.dict [([98], .int 2), ([97], .int 1)]) = true ∧
    pyEq (.dict [([97], .int 1), ([98], .int 2)])
      (.dict [([98], .int 2), ([97], .int 1)]) = true ∧
    calculate_info_hash (.dict [([97], .int 1), ([98], .int 2)]) =
      calculate_info_hash (.dict [([98], .int 2), ([97], .int 1)]) :=
  ⟨by decide, by decide, by decide,
    (C4_canonical_encoder_info_hash.2
      (.dict [([97], .int 1), ([98], .int 2)])
      (.dict [([98], .int 2), ([97], .int 1)])
      (by decide) (by decide) (by decide)).1⟩

end BTC
